import Mathlib

/-!
Verification of the swgear build-planner core (stat aggregation, threshold
classification, diminishing-returns transform, URL codec, and the crafting
combination resolver) against a shallow embedding of the JavaScript source.

Strings are embedded as `List Char`; JavaScript numbers appearing in this
code are non-negative integers, embedded as `Nat` (or `Int` where a
subtraction appears); `Math.floor(a / b)` on naturals is `Nat` division;
fallible operations (paths on which the JavaScript would throw) return
`Option`.
-/

namespace SWGear

/-- Strings of the embedded program, as lists of characters. -/
abbrev Str := List Char

/-- Convert a Lean string literal to the embedded string type. -/
def str (s : String) : Str := s.toList

/-! ## JavaScript primitives -/

/-- Character of a decimal digit value (`0 ↦ '0'` … `9 ↦ '9'`). -/
def digitChar (n : Nat) : Char := Char.ofNat (48 + n)

/-- Decimal rendering with structural fuel (any `fuel > n` is enough). -/
def natToCharsAux (fuel n : Nat) : Str :=
  match fuel with
  | 0 => []
  | f + 1 => if n < 10 then [digitChar n] else natToCharsAux f (n / 10) ++ [digitChar (n % 10)]

/-- Decimal rendering of a natural number, as JavaScript string
interpolation `${n}` produces for a non-negative integer. -/
def natToChars (n : Nat) : Str := natToCharsAux (n + 1) n

/-- Value of a string of decimal digits. -/
def digitsToNat (l : Str) : Nat := l.foldl (fun a c => 10 * a + (c.toNat - 48)) 0

/-- `parseInt(s, 10)`: `none` is JavaScript `NaN`.  Parses the maximal
leading run of decimal digits (the inputs of this program carry no sign or
leading whitespace). -/
def jsParseInt (s : Str) : Option Nat :=
  let ds := s.takeWhile Char.isDigit
  if ds = [] then none else some (digitsToNat ds)

/-- `parseInt(s, 10) || d`: both `NaN` and `0` are falsy and yield `d`. -/
def jsToIntD (s : Str) (d : Nat) : Nat :=
  match jsParseInt s with
  | none => d
  | some n => if n = 0 then d else n

/-- `n || d` on numbers: `0` is falsy. -/
def jsOrNat (n d : Nat) : Nat := if n = 0 then d else n

/-- `s.split(sep)` for a single-character separator.  JavaScript returns at
least one chunk (`''.split('|') = ['']`). -/
def splitCh (sep : Char) : Str → List Str
  | [] => [[]]
  | c :: rest =>
    match splitCh sep rest with
    | [] => [[]]
    | h :: t => if c = sep then [] :: h :: t else (c :: h) :: t

/-- `parts.join(sep)` for a single-character separator. -/
def joinCh (sep : Char) : List Str → Str
  | [] => []
  | [p] => p
  | p :: rest => p ++ sep :: joinCh sep rest

/-! ## Derived-pool transform (`src/utils/urlState.js`, `calculateEffectivePoints`) -/

/-- `calculateStatValue(powerBit, ratio) = Math.floor(powerBit / ratio)`. -/
def calculateStatValue (powerBit ratio : Nat) : Nat := powerBit / ratio

/-- Diminishing-returns transform: identity up to 250, then
`Math.floor((750 * actual) / (500 + actual))`. -/
def calculateEffectivePoints (actual : Nat) : Nat :=
  if actual ≤ 250 then actual
  else (750 * actual) / (500 + actual)

/-! ### Lemmas about the transform -/

theorem effectivePoints_le_branch {x : Nat} (h : x ≤ 250) :
    calculateEffectivePoints x = x := by
  simp [calculateEffectivePoints, h]

theorem effectivePoints_gt_branch {x : Nat} (h : 250 < x) :
    calculateEffectivePoints x = (750 * x) / (500 + x) := by
  simp [calculateEffectivePoints, Nat.not_le.mpr h]

theorem effectivePoints_div_le (x : Nat) : (750 * x) / (500 + x) ≤ 750 := by
  calc (750 * x) / (500 + x) ≤ (750 * (500 + x)) / (500 + x) := by
        exact Nat.div_le_div_right (by nlinarith)
    _ = 750 := Nat.mul_div_cancel 750 (by omega)

theorem effectivePoints_mono {x y : Nat} (h : x ≤ y) :
    calculateEffectivePoints x ≤ calculateEffectivePoints y := by
  by_cases hx : x ≤ 250
  · by_cases hy : y ≤ 250
    · rw [effectivePoints_le_branch hx, effectivePoints_le_branch hy]; exact h
    · push_neg at hy
      rw [effectivePoints_le_branch hx, effectivePoints_gt_branch hy]
      have : x ≤ 250 := hx
      have h250 : 250 ≤ (750 * y) / (500 + y) := by
        rw [Nat.le_div_iff_mul_le (by omega)]
        nlinarith
      omega
  · push_neg at hx
    have hy : 250 < y := by omega
    rw [effectivePoints_gt_branch hx, effectivePoints_gt_branch hy]
    set k := (750 * x) / (500 + x) with hk
    have hkx : k * (500 + x) ≤ 750 * x := by
      rw [hk]; exact Nat.div_mul_le_self _ _
    have hk750 : k ≤ 750 := effectivePoints_div_le x
    rw [Nat.le_div_iff_mul_le (by omega)]
    nlinarith

/-! ## Threshold classifier (`src/utils/urlState.js`, `getSoftCapWarnings`) -/

/-- `STAT_THRESHOLDS.IDEAL`. -/
def IDEAL : Int := 250

/-- `STAT_THRESHOLDS.DIMINISHING`. -/
def DIMINISHING : Int := 300

/-- `STAT_THRESHOLDS.HARD_CAP`. -/
def HARD_CAP : Int := 350

/-- The `status` strings assigned by `getSoftCapWarnings`. -/
inductive WarnStatus where
  | under
  | ideal
  | diminishing
  | hardCap
deriving DecidableEq, Repr

/-- One entry of the warnings map. -/
structure Warning where
  total : Int
  status : WarnStatus
  label : Str
  wasted : Int
  isCore : Bool
deriving DecidableEq, Repr

/-- Catalog entry of the modifier list (`name`, `category` omitted as unused
by the embedded functions, `ratio`, `isCore`). -/
structure ModEntry where
  name : Str
  ratio : Nat
  isCore : Bool
deriving DecidableEq, Repr

/-- `new Map(modifiers.map(m => [m.name, m])).get(n)`: with duplicate names
the later entry overwrites the earlier one. -/
def jsMapGet (modifiers : List ModEntry) (n : Str) : Option ModEntry :=
  modifiers.reverse.find? (fun m => m.name = n)

/-- Classification of one total, exactly the `if` chain of the source. -/
def warnFor (modifiers : List ModEntry) (statName : Str) (total : Int) : Warning :=
  let isCore := ((jsMapGet modifiers statName).map (·.isCore)).getD false
  if total ≥ HARD_CAP then
    { total := total, status := .hardCap, label := str "Hard Cap",
      wasted := total - HARD_CAP, isCore := isCore }
  else if total ≥ DIMINISHING then
    { total := total, status := .diminishing, label := str "Diminishing Returns",
      wasted := 0, isCore := isCore }
  else if total ≥ IDEAL then
    { total := total, status := .ideal, label := str "Ideal Range",
      wasted := 0, isCore := isCore }
  else
    { total := total, status := .under, label := str "", wasted := 0, isCore := isCore }

/-- `getSoftCapWarnings(totals, modifiers)`: iterates `Object.entries(totals)`
and classifies each present stat. -/
def getSoftCapWarnings (totals : List (Str × Int)) (modifiers : List ModEntry) :
    List (Str × Warning) :=
  totals.map (fun p => (p.1, warnFor modifiers p.1 p.2))

/-! ## Claims C1, C2, C4, C5 -/

/-- Claim C1: for every non-negative integer stat total `x`,
`calculateEffectivePoints(x)` is exactly `x` when `x ≤ 250` and exactly
`floor(750 * x / (500 + x))` when `x > 250`; both branch formulas give `250`
at `x = 250`, and `calculateEffectivePoints 251 = 250`. -/
theorem effectivePoints_spec (x : Nat) :
    (x ≤ 250 → calculateEffectivePoints x = x) ∧
    (250 < x → calculateEffectivePoints x = (750 * x) / (500 + x)) ∧
    calculateEffectivePoints 250 = 250 ∧
    (750 * 250) / (500 + 250) = 250 ∧
    calculateEffectivePoints 251 = 250 := by
  refine ⟨fun h => effectivePoints_le_branch h,
          fun h => effectivePoints_gt_branch h, by decide, by decide, by decide⟩

/-- Witness for C1 at `x = 251`. -/
theorem effectivePoints_spec_witness :
    calculateEffectivePoints 251 = (750 * 251) / (500 + 251) :=
  ((effectivePoints_spec 251).2.1 (by decide)).trans rfl

/-- Counterexample to claim C2: the transform is not bounded by 500 —
`calculateEffectivePoints 10000 = 714`, exceeding 500 (the true asymptote
of `750 * x / (500 + x)` is 750). -/
theorem effectivePoints_not_bounded_500 :
    calculateEffectivePoints 10000 = 714 ∧ ¬ calculateEffectivePoints 10000 ≤ 500 := by
  constructor
  · rw [effectivePoints_gt_branch (by omega)]
  · rw [effectivePoints_gt_branch (by omega)]
    omega

/-- Claim C2 (amended): the transform is monotonically non-decreasing, every
value is strictly below 750 (the asymptote of the formula is 750, not 500),
and the 500 bound holds exactly up to `x = 1006`: `f x ≤ 500` for `x ≤ 1006`
while `f 1007 = 501`. -/
theorem effectivePoints_mono_bounded :
    (∀ x y : Nat, x ≤ y → calculateEffectivePoints x ≤ calculateEffectivePoints y) ∧
    (∀ x : Nat, calculateEffectivePoints x < 750) ∧
    (∀ x : Nat, x ≤ 1006 → calculateEffectivePoints x ≤ 500) ∧
    calculateEffectivePoints 1007 = 501 := by
  refine ⟨fun x y h => effectivePoints_mono h, ?_, ?_, ?_⟩
  · intro x
    by_cases hx : x ≤ 250
    · rw [effectivePoints_le_branch hx]; omega
    · push_neg at hx
      rw [effectivePoints_gt_branch hx]
      rw [Nat.div_lt_iff_lt_mul (by omega)]
      nlinarith
  · intro x hx
    by_cases h250 : x ≤ 250
    · rw [effectivePoints_le_branch h250]; omega
    · push_neg at h250
      rw [effectivePoints_gt_branch h250]
      by_contra hgt
      push_neg at hgt
      have : 501 * (500 + x) ≤ 750 * x := by
        rw [← Nat.le_div_iff_mul_le (by omega)]
        omega
      omega
  · rw [effectivePoints_gt_branch (by omega)]

/-- Witness for C2 (amended) at `x = 3, y = 400, x' = 1006`. -/
theorem effectivePoints_mono_bounded_witness :
    calculateEffectivePoints 3 ≤ calculateEffectivePoints 400 ∧
    calculateEffectivePoints 400 < 750 ∧
    calculateEffectivePoints 1006 ≤ 500 :=
  ⟨effectivePoints_mono_bounded.1 3 400 (by decide),
   effectivePoints_mono_bounded.2.1 400,
   effectivePoints_mono_bounded.2.2.1 1006 (by decide)⟩

/-- The warning produced for a present stat, spelled by threshold band. -/
theorem warnFor_band (modifiers : List ModEntry) (n : Str) (t : Int) :
    (warnFor modifiers n t).total = t ∧
    (350 ≤ t → (warnFor modifiers n t).status = .hardCap ∧
               (warnFor modifiers n t).wasted = t - 350) ∧
    (300 ≤ t → t < 350 → (warnFor modifiers n t).status = .diminishing ∧
               (warnFor modifiers n t).wasted = 0) ∧
    (250 ≤ t → t < 300 → (warnFor modifiers n t).status = .ideal ∧
               (warnFor modifiers n t).wasted = 0) ∧
    (t < 250 → (warnFor modifiers n t).status = .under ∧
               (warnFor modifiers n t).wasted = 0) := by
  unfold warnFor HARD_CAP DIMINISHING IDEAL
  split_ifs with h1 h2 h3 <;>
    refine ⟨rfl, ?_, ?_, ?_, ?_⟩ <;> intros <;> simp_all <;> omega

/-- Claim C4: `getSoftCapWarnings` assigns each present stat with total `t`
status `hard-cap` with `wasted = t - 350` when `t ≥ 350`, `diminishing`
(wasted 0) when `300 ≤ t < 350`, `ideal` (wasted 0) when `250 ≤ t < 300`,
and `under` (wasted 0) when `t < 250`; in particular 249 is under, 250 is
ideal, 350 is hard-cap with wasted 0, 400 is hard-cap with wasted 50. -/
theorem softCapWarnings_classification :
    (∀ (totals : List (Str × Int)) (modifiers : List ModEntry) (n : Str) (t : Int),
      (n, t) ∈ totals →
      ∃ w : Warning, (n, w) ∈ getSoftCapWarnings totals modifiers ∧
        w.total = t ∧
        (350 ≤ t → w.status = .hardCap ∧ w.wasted = t - 350) ∧
        (300 ≤ t → t < 350 → w.status = .diminishing ∧ w.wasted = 0) ∧
        (250 ≤ t → t < 300 → w.status = .ideal ∧ w.wasted = 0) ∧
        (t < 250 → w.status = .under ∧ w.wasted = 0)) ∧
    ((getSoftCapWarnings [(str "A", 249)] []).map (fun p => (p.2.status, p.2.wasted))
        = [(.under, 0)]) ∧
    ((getSoftCapWarnings [(str "A", 250)] []).map (fun p => (p.2.status, p.2.wasted))
        = [(.ideal, 0)]) ∧
    ((getSoftCapWarnings [(str "A", 350)] []).map (fun p => (p.2.status, p.2.wasted))
        = [(.hardCap, 0)]) ∧
    ((getSoftCapWarnings [(str "A", 400)] []).map (fun p => (p.2.status, p.2.wasted))
        = [(.hardCap, 50)]) := by
  refine ⟨?_, by decide, by decide, by decide, by decide⟩
  intro totals modifiers n t hmem
  refine ⟨warnFor modifiers n t, ?_, (warnFor_band modifiers n t).1,
          (warnFor_band modifiers n t).2.1, (warnFor_band modifiers n t).2.2.1,
          (warnFor_band modifiers n t).2.2.2.1, (warnFor_band modifiers n t).2.2.2.2⟩
  exact List.mem_map.mpr ⟨(n, t), hmem, rfl⟩

/-- Witness for C4 at totals `{A: 400}`. -/
theorem softCapWarnings_classification_witness :
    ∃ w : Warning, (str "A", w) ∈ getSoftCapWarnings [(str "A", 400)] [] ∧
      w.total = 400 ∧
      (350 ≤ (400 : Int) → w.status = .hardCap ∧ w.wasted = 400 - 350) ∧
      (300 ≤ (400 : Int) → (400 : Int) < 350 → w.status = .diminishing ∧ w.wasted = 0) ∧
      (250 ≤ (400 : Int) → (400 : Int) < 300 → w.status = .ideal ∧ w.wasted = 0) ∧
      ((400 : Int) < 250 → w.status = .under ∧ w.wasted = 0) :=
  softCapWarnings_classification.1 [(str "A", 400)] [] (str "A") 400 (by decide)

/-- Counterexample to claim C5: at total exactly 350 the status is
`hard-cap` but `wasted = 0`, so "`wasted` non-zero iff `hard-cap`" fails. -/
theorem wasted_iff_hardCap_false :
    ¬ (∀ p ∈ getSoftCapWarnings [(str "A", 350)] [],
        (p.2.wasted ≠ 0 ↔ p.2.status = .hardCap)) := by
  decide

/-- Claim C5 (amended): for every stat classified by `getSoftCapWarnings`,
a non-zero `wasted` implies status `hard-cap`; precisely, `wasted` is
non-zero iff the status is `hard-cap` and the total strictly exceeds 350
(at total exactly 350 the status is `hard-cap` with `wasted = 0`). -/
theorem wasted_nonzero_only_if_hardCap :
    ∀ (totals : List (Str × Int)) (modifiers : List ModEntry) (n : Str) (w : Warning),
      (n, w) ∈ getSoftCapWarnings totals modifiers →
      (w.wasted ≠ 0 → w.status = .hardCap) ∧
      (w.wasted ≠ 0 ↔ w.status = .hardCap ∧ 350 < w.total) := by
  intro totals modifiers n w hmem
  obtain ⟨⟨n', t⟩, -, heq⟩ := List.mem_map.mp hmem
  obtain ⟨rfl, rfl⟩ : n' = n ∧ warnFor modifiers n' t = w := by
    simpa [Prod.ext_iff] using heq
  have hb := warnFor_band modifiers n' t
  by_cases h1 : 350 ≤ t
  · have hs := hb.2.1 h1
    refine ⟨fun _ => hs.1, ?_⟩
    rw [hb.1, hs.2]
    constructor
    · intro hne; exact ⟨hs.1, by omega⟩
    · rintro ⟨-, hlt⟩; omega
  · push_neg at h1
    have hw0 : (warnFor modifiers n' t).wasted = 0 := by
      by_cases h2 : 300 ≤ t
      · exact (hb.2.2.1 h2 h1).2
      · push_neg at h2
        by_cases h3 : 250 ≤ t
        · exact (hb.2.2.2.1 h3 h2).2
        · push_neg at h3
          exact (hb.2.2.2.2 h3).2
    refine ⟨fun hne => absurd hw0 hne, ?_⟩
    rw [hw0, hb.1]
    constructor
    · intro h; exact absurd rfl h
    · rintro ⟨-, hlt⟩; omega

/-- Witness for C5 (amended) at totals `{A: 400}`. -/
theorem wasted_nonzero_only_if_hardCap_witness :
    ((warnFor [] (str "A") 400).wasted ≠ 0 → (warnFor [] (str "A") 400).status = .hardCap) ∧
    ((warnFor [] (str "A") 400).wasted ≠ 0 ↔
      (warnFor [] (str "A") 400).status = .hardCap ∧ 350 < (warnFor [] (str "A") 400).total) :=
  wasted_nonzero_only_if_hardCap [(str "A", 400)] [] (str "A") _ (by decide)

/-! ## Build data model (`src/components/SlotBuilder.js`, `SLOT_CONFIG`) -/

/-- The 12 fixed equipment slot identifiers. -/
inductive SlotId where
  | helmet | lbicep | rbicep | chest | shirt | lbracer
  | rbracer | gloves | belt | pants | boots | weapon
deriving DecidableEq, Repr, Fintype

/-- The slots in `SLOT_CONFIG` order (the object-key insertion order of
every build produced by `createEmptyBuild` and `decodeBuild`). -/
def slotIds : List SlotId :=
  [.helmet, .lbicep, .rbicep, .chest, .shirt, .lbracer,
   .rbracer, .gloves, .belt, .pants, .boots, .weapon]

/-- One entry of a slot's `stats` array: a modifier name, with the
loosely-present `ratio` field some slot entries carry. -/
structure StatEntry where
  modifier : Str
  ratio : Option Nat := none
deriving DecidableEq, Repr

/-- Per-slot state: power bit and stat entries. -/
structure Slot where
  powerBit : Nat
  stats : List StatEntry
deriving DecidableEq, Repr

/-- An external buff `{ modifier, value, source }`.  `value` is a
non-negative integer (the source applies `parseInt` to it, the identity
here). -/
structure Buff where
  modifier : Str
  value : Nat
  source : Str
deriving DecidableEq, Repr

/-- A build: the 12 slots plus the external-buff list. -/
structure Build where
  slots : SlotId → Slot
  externalBuffs : List Buff

/-! ## JavaScript object as an insertion-ordered association list -/

/-- `o[k] ?? d` seen as a number: lookup with default. -/
def objGetD (o : List (Str × Nat)) (k : Str) (d : Nat) : Nat :=
  ((o.find? (fun p => p.1 = k)).map (·.2)).getD d

/-- `o[k] = v`: overwrite in place, or append a new key. -/
def objSet (o : List (Str × Nat)) (k : Str) (v : Nat) : List (Str × Nat) :=
  match o with
  | [] => [(k, v)]
  | p :: rest => if p.1 = k then (k, v) :: rest else p :: objSet rest k v

/-- `totals[k] = (totals[k] || 0) + v`. -/
def addTo (t : List (Str × Nat)) (k : Str) (v : Nat) : List (Str × Nat) :=
  objSet t k (objGetD t k 0 + v)

/-- `o || d` on a possibly-absent number (`undefined` and `0` are falsy). -/
def jsOrOpt (o : Option Nat) (d : Nat) : Nat :=
  match o with
  | none => d
  | some n => if n = 0 then d else n

/-! ## Stat aggregator (`src/utils/urlState.js`, `calculateTotals`) -/

/-- `calculateTotals(build, modifiers, externalBuffs)`: sums
`floor((slot.powerBit || 35) / (modInfo?.ratio || stat.ratio || 1))` over
all populated slot stats keyed by modifier name, then adds each external
buff with truthy modifier and value. -/
def calculateTotals (build : Build) (modifiers : List ModEntry)
    (externalBuffs : List Buff) : List (Str × Nat) :=
  let slotTotals := slotIds.foldl (fun t sid =>
    (build.slots sid).stats.foldl (fun t s =>
      if s.modifier = [] then t
      else
        addTo t s.modifier (calculateStatValue (jsOrNat (build.slots sid).powerBit 35)
          (jsOrOpt ((jsMapGet modifiers s.modifier).map (·.ratio)) (jsOrOpt s.ratio 1)))) t) []
  externalBuffs.foldl (fun t b =>
    if b.modifier ≠ [] ∧ b.value ≠ 0 then addTo t b.modifier b.value else t) slotTotals

/-- The ratio the claim describes: the catalog ratio for the modifier name
if present, else the ratio stored on the slot entry itself, else 1. -/
def specRatio (modifiers : List ModEntry) (s : StatEntry) : Nat :=
  match jsMapGet modifiers s.modifier with
  | some mo => mo.ratio
  | none =>
    match s.ratio with
    | some r => r
    | none => 1

/-! ### Association-list and fold lemmas -/

theorem objGetD_cons (p : Str × Nat) (rest : List (Str × Nat)) (m : Str) (d : Nat) :
    objGetD (p :: rest) m d = if p.1 = m then p.2 else objGetD rest m d := by
  by_cases h : p.1 = m <;> simp [objGetD, List.find?_cons, h]

theorem objGetD_objSet (t : List (Str × Nat)) (k : Str) (v : Nat) (m : Str) (d : Nat) :
    objGetD (objSet t k v) m d = if m = k then v else objGetD t m d := by
  induction t with
  | nil =>
    show objGetD [(k, v)] m d = _
    rw [objGetD_cons]
    by_cases h : m = k
    · simp [h]
    · simp [h, Ne.symm h]
  | cons p rest ih =>
    by_cases hp : p.1 = k
    · show objGetD (if p.1 = k then (k, v) :: rest else p :: objSet rest k v) m d = _
      rw [if_pos hp, objGetD_cons, objGetD_cons]
      by_cases h : m = k
      · simp [h]
      · have hpm : p.1 ≠ m := by rw [hp]; exact Ne.symm h
        simp [h, hpm]
        exact fun hkm => absurd hkm.symm h
    · show objGetD (if p.1 = k then (k, v) :: rest else p :: objSet rest k v) m d = _
      rw [if_neg hp, objGetD_cons, ih, objGetD_cons]
      by_cases hpm : p.1 = m
      · have hmk : m ≠ k := fun h => hp (hpm.trans h)
        simp [hpm, hmk]
      · simp [hpm]

theorem objGetD_addTo (t : List (Str × Nat)) (k : Str) (v : Nat) (m : Str) :
    objGetD (addTo t k v) m 0 = objGetD t m 0 + if m = k then v else 0 := by
  rw [addTo, objGetD_objSet]
  by_cases h : m = k <;> simp [h]

theorem objGetD_buffFold (ext : List Buff) (t0 : List (Str × Nat)) (m : Str) (hm : m ≠ []) :
    objGetD (ext.foldl (fun t b =>
        if b.modifier ≠ [] ∧ b.value ≠ 0 then addTo t b.modifier b.value else t) t0) m 0
      = objGetD t0 m 0 + ((ext.filter (fun b => decide (b.modifier = m))).map (·.value)).sum := by
  induction ext generalizing t0 with
  | nil => simp
  | cons b rest ih =>
    rw [List.foldl_cons]
    by_cases hb : b.modifier ≠ [] ∧ b.value ≠ 0
    · rw [if_pos hb, ih, objGetD_addTo]
      by_cases hbm : b.modifier = m
      · simp [List.filter_cons, hbm]
        omega
      · have : m ≠ b.modifier := Ne.symm hbm
        simp [List.filter_cons, hbm, this]
    · rw [if_neg hb, ih]
      rcases Decidable.not_and_iff_or_not.mp hb with hmod | hval
      · push_neg at hmod
        have : b.modifier ≠ m := by rw [hmod]; exact Ne.symm hm
        simp [List.filter_cons, this]
      · push_neg at hval
        by_cases hbm : b.modifier = m <;> simp [List.filter_cons, hbm, hval]

theorem objGetD_statFold (c : StatEntry → Nat) (stats : List StatEntry)
    (t0 : List (Str × Nat)) (m : Str) (hm : m ≠ []) :
    objGetD (stats.foldl (fun t s =>
        if s.modifier = [] then t else addTo t s.modifier (c s)) t0) m 0
      = objGetD t0 m 0 + ((stats.filter (fun s => decide (s.modifier = m))).map c).sum := by
  induction stats generalizing t0 with
  | nil => simp
  | cons s rest ih =>
    rw [List.foldl_cons]
    by_cases hs : s.modifier = []
    · rw [if_pos hs, ih]
      have : s.modifier ≠ m := by rw [hs]; exact Ne.symm hm
      simp [List.filter_cons, this]
    · rw [if_neg hs, ih, objGetD_addTo]
      by_cases hsm : s.modifier = m
      · simp [List.filter_cons, hsm]
        omega
      · have : m ≠ s.modifier := Ne.symm hsm
        simp [List.filter_cons, hsm, this]

theorem objGetD_slotsFold (c : SlotId → StatEntry → Nat) (stats : SlotId → List StatEntry)
    (sids : List SlotId) (t0 : List (Str × Nat)) (m : Str) (hm : m ≠ []) :
    objGetD (sids.foldl (fun t sid =>
        (stats sid).foldl (fun t s =>
          if s.modifier = [] then t else addTo t s.modifier (c sid s)) t) t0) m 0
      = objGetD t0 m 0 + (sids.map (fun sid =>
          (((stats sid).filter (fun s => decide (s.modifier = m))).map (c sid)).sum)).sum := by
  induction sids generalizing t0 with
  | nil => simp
  | cons sid rest ih =>
    rw [List.foldl_cons, ih, objGetD_statFold (c sid) (stats sid) t0 m hm]
    simp [List.map_cons, List.sum_cons]
    omega

theorem jsOr_ratio_eq (modifiers : List ModEntry) (s : StatEntry)
    (hcat : ∀ mo ∈ modifiers, mo.ratio ≠ 0) (hs : s.ratio ≠ some 0) :
    jsOrOpt ((jsMapGet modifiers s.modifier).map (·.ratio)) (jsOrOpt s.ratio 1)
      = specRatio modifiers s := by
  unfold specRatio
  cases hfind : jsMapGet modifiers s.modifier with
  | none =>
    cases hsr : s.ratio with
    | none => simp [jsOrOpt]
    | some r =>
      have hr : r ≠ 0 := fun h => hs (by rw [hsr, h])
      simp [jsOrOpt, hr]
  | some mo =>
    have hmo : mo ∈ modifiers := by
      have := List.mem_of_find?_eq_some hfind
      exact List.mem_reverse.mp this
    simp [jsOrOpt, hcat mo hmo]

/-- Claim C6: `calculateTotals` computes each populated slot-stat entry's
contribution as `floor(slot.powerBit / ratio)` — `ratio` being the catalog
ratio for the modifier name if present, else the ratio stored on the slot
entry, else 1 — sums contributions across all slots keyed by modifier name,
and then adds every external-stats entry flat by its integer value.
Hypotheses are the build data-model invariants: power bits and catalog
ratios are positive, stored slot-entry ratios are non-zero when present,
and the queried modifier name is non-empty. -/
theorem calculateTotals_spec :
    ∀ (build : Build) (modifiers : List ModEntry) (external : List Buff) (m : Str),
      m ≠ [] →
      (∀ sid : SlotId, (build.slots sid).powerBit ≠ 0) →
      (∀ mo ∈ modifiers, mo.ratio ≠ 0) →
      (∀ sid : SlotId, ∀ s ∈ (build.slots sid).stats, s.ratio ≠ some 0) →
      objGetD (calculateTotals build modifiers external) m 0 =
        (slotIds.map (fun sid =>
          ((((build.slots sid).stats.filter (fun s => decide (s.modifier = m))).map
            (fun s => (build.slots sid).powerBit / specRatio modifiers s)).sum))).sum
        + ((external.filter (fun b => decide (b.modifier = m))).map (·.value)).sum := by
  intro build modifiers external m hm hpb hcat hsr
  unfold calculateTotals
  rw [objGetD_buffFold _ _ _ hm,
      objGetD_slotsFold
        (fun sid s => calculateStatValue (jsOrNat (build.slots sid).powerBit 35)
          (jsOrOpt ((jsMapGet modifiers s.modifier).map (·.ratio)) (jsOrOpt s.ratio 1)))
        (fun sid => (build.slots sid).stats) slotIds [] m hm]
  have hobj0 : objGetD ([] : List (Str × Nat)) m 0 = 0 := rfl
  rw [hobj0, Nat.zero_add]
  congr 1
  apply congrArg List.sum
  apply List.map_congr_left
  intro sid _
  apply congrArg List.sum
  apply List.map_congr_left
  intro s hsmem
  have hsmem' : s ∈ (build.slots sid).stats := List.mem_of_mem_filter hsmem
  rw [jsOr_ratio_eq modifiers s hcat (hsr sid s hsmem')]
  unfold calculateStatValue jsOrNat
  rw [if_neg (hpb sid)]

/-- Witness for C6: a helmet carrying `Ranged General` (catalog ratio 1) at
power 35, one `Toughness Boost` external buff of 25, queried at
`Ranged General`. -/
theorem calculateTotals_spec_witness :
    objGetD
      (calculateTotals
        { slots := fun sid =>
            match sid with
            | .helmet => { powerBit := 35,
                           stats := [{ modifier := str "Ranged General", ratio := none }] }
            | _ => { powerBit := 35, stats := [] },
          externalBuffs := [] }
        [{ name := str "Ranged General", ratio := 1, isCore := true }]
        [{ modifier := str "Toughness Boost", value := 25, source := str "food" }])
      (str "Ranged General") 0 = 35 := by
  rw [calculateTotals_spec _ _ _ _ (by decide)
        (fun sid => by cases sid <;> decide)
        (by intro mo hmo; simp at hmo; rw [hmo]; decide)
        (fun sid => by cases sid <;> simp)]
  decide

/-! ## Combination resolver (`src/utils/export.js` and the crafter view) -/

/-- One cell of the recipe index (`{ name, ratio? }`; only `name` is read by
the embedded functions). -/
structure ComboEntry where
  name : Str
deriving DecidableEq, Repr

/-- The nested recipe index `material -> material -> { name }`, in
object-insertion order. -/
abbrev ComboIndex := List (Str × List (Str × ComboEntry))

/-- `findCombinationsForModifier(modifierName, combinations)`: the nested
`for`-loop over `Object.entries` pushing every pair whose `name` matches. -/
def findCombinationsForModifier (modifierName : Str) (combinations : ComboIndex) :
    List (Str × Str) :=
  combinations.flatMap (fun p =>
    (p.2.filter (fun q => decide (q.2.name = modifierName))).map (fun q => (p.1, q.1)))

/-- `combinationsData[x] && combinationsData[x][y]`. -/
def comboAt (combinations : ComboIndex) (x y : Str) : Option ComboEntry :=
  (combinations.find? (fun p => p.1 = x)).bind
    (fun p => ((p.2.find? (fun q => q.1 = y)).map (·.2)))

/-- JavaScript `.sort()` string comparison: lexicographic on code units. -/
def strLeb : Str → Str → Bool
  | [], _ => true
  | _ :: _, [] => false
  | a :: as, b :: bs => if a = b then strLeb as bs else decide (a < b)

/-- `getCompatibleItems(selectedItem, targetModifier, combinationsData,
allItems)`: collects every other item of the pool that pairs with the
selected item — in either stored direction — to produce the target
modifier, then sorts. -/
def getCompatibleItems (selectedItem targetModifier : Str) (combinationsData : ComboIndex)
    (allItems : List Str) : List Str :=
  let compatible := allItems.foldl (fun acc item =>
    if item = selectedItem then acc
    else if (comboAt combinationsData selectedItem item).any (fun e => e.name = targetModifier) then
      acc ++ [item]
    else if (comboAt combinationsData item selectedItem).any (fun e => e.name = targetModifier) then
      acc ++ [item]
    else acc) []
  compatible.mergeSort strLeb

/-- The compatibility condition of the inner loop of `getCompatibleItems`. -/
def compatCond (selectedItem targetModifier : Str) (combinationsData : ComboIndex)
    (item : Str) : Prop :=
  item ≠ selectedItem ∧
    ((comboAt combinationsData selectedItem item).any (fun e => e.name = targetModifier) = true ∨
     (comboAt combinationsData item selectedItem).any (fun e => e.name = targetModifier) = true)

theorem mem_compatFold (selectedItem targetModifier : Str) (combinationsData : ComboIndex) :
    ∀ (items : List Str) (acc : List Str) (x : Str),
      x ∈ items.foldl (fun acc item =>
        if item = selectedItem then acc
        else if (comboAt combinationsData selectedItem item).any
            (fun e => e.name = targetModifier) then acc ++ [item]
        else if (comboAt combinationsData item selectedItem).any
            (fun e => e.name = targetModifier) then acc ++ [item]
        else acc) acc ↔
      x ∈ acc ∨ (x ∈ items ∧ compatCond selectedItem targetModifier combinationsData x) := by
  intro items
  induction items with
  | nil => simp
  | cons it rest ih =>
    intro acc x
    rw [List.foldl_cons]
    by_cases h1 : it = selectedItem
    · rw [if_pos h1, ih]
      constructor
      · rintro (hx | hx)
        · exact Or.inl hx
        · exact Or.inr ⟨List.mem_cons_of_mem _ hx.1, hx.2⟩
      · rintro (hx | ⟨hmem, hcond⟩)
        · exact Or.inl hx
        · rcases List.mem_cons.mp hmem with rfl | hmem'
          · exact absurd h1 hcond.1
          · exact Or.inr ⟨hmem', hcond⟩
    · rw [if_neg h1]
      by_cases h2 : (comboAt combinationsData selectedItem it).any
          (fun e => e.name = targetModifier) = true
      · rw [if_pos h2, ih]
        constructor
        · rintro (hx | hx)
          · rcases List.mem_append.mp hx with hx' | hx'
            · exact Or.inl hx'
            · rcases List.mem_singleton.mp hx' with rfl
              exact Or.inr ⟨List.mem_cons_self _ _, h1, Or.inl h2⟩
          · exact Or.inr ⟨List.mem_cons_of_mem _ hx.1, hx.2⟩
        · rintro (hx | ⟨hmem, hcond⟩)
          · exact Or.inl (List.mem_append.mpr (Or.inl hx))
          · rcases List.mem_cons.mp hmem with rfl | hmem'
            · exact Or.inl (List.mem_append.mpr (Or.inr (List.mem_singleton.mpr rfl)))
            · exact Or.inr ⟨hmem', hcond⟩
      · rw [if_neg h2]
        by_cases h3 : (comboAt combinationsData it selectedItem).any
            (fun e => e.name = targetModifier) = true
        · rw [if_pos h3, ih]
          constructor
          · rintro (hx | hx)
            · rcases List.mem_append.mp hx with hx' | hx'
              · exact Or.inl hx'
              · rcases List.mem_singleton.mp hx' with rfl
                exact Or.inr ⟨List.mem_cons_self _ _, h1, Or.inr h3⟩
            · exact Or.inr ⟨List.mem_cons_of_mem _ hx.1, hx.2⟩
          · rintro (hx | ⟨hmem, hcond⟩)
            · exact Or.inl (List.mem_append.mpr (Or.inl hx))
            · rcases List.mem_cons.mp hmem with rfl | hmem'
              · exact Or.inl (List.mem_append.mpr (Or.inr (List.mem_singleton.mpr rfl)))
              · exact Or.inr ⟨hmem', hcond⟩
        · rw [if_neg h3, ih]
          constructor
          · rintro (hx | hx)
            · exact Or.inl hx
            · exact Or.inr ⟨List.mem_cons_of_mem _ hx.1, hx.2⟩
          · rintro (hx | ⟨hmem, hcond⟩)
            · exact Or.inl hx
            · rcases List.mem_cons.mp hmem with rfl | hmem'
              · rcases hcond.2 with hc | hc
                · exact absurd hc h2
                · exact absurd hc h3
              · exact Or.inr ⟨hmem', hcond⟩

/-- Claim C8: `findCombinationsForModifier` returns exactly the stored
material pairs whose produced-modifier name matches, whatever the storage
orientation (the whole nested index is scanned); the example index
`{X:{Y:Foo}, Z:{Y:Foo}}` yields `[(X,Y),(Z,Y)]` and the reverse-stored
`{Y:{X:Foo}}` yields `(Y,X)`; and `getCompatibleItems` finds second
materials via either stored direction. -/
theorem findCombinations_spec :
    (∀ (combinations : ComboIndex) (mname a b : Str),
      (a, b) ∈ findCombinationsForModifier mname combinations ↔
        ∃ ps, (a, ps) ∈ combinations ∧ ∃ e, (b, e) ∈ ps ∧ e.name = mname) ∧
    (findCombinationsForModifier (str "Foo")
        [(str "X", [(str "Y", ⟨str "Foo"⟩)]), (str "Z", [(str "Y", ⟨str "Foo"⟩)])]
      = [(str "X", str "Y"), (str "Z", str "Y")]) ∧
    (findCombinationsForModifier (str "Foo") [(str "Y", [(str "X", ⟨str "Foo"⟩)])]
      = [(str "Y", str "X")]) ∧
    (∀ (selectedItem targetModifier : Str) (combinationsData : ComboIndex)
        (allItems : List Str) (item : Str),
      item ∈ getCompatibleItems selectedItem targetModifier combinationsData allItems ↔
        (item ∈ allItems ∧ item ≠ selectedItem ∧
          ((comboAt combinationsData selectedItem item).any
              (fun e => e.name = targetModifier) = true ∨
           (comboAt combinationsData item selectedItem).any
              (fun e => e.name = targetModifier) = true))) := by
  refine ⟨?_, by decide, by decide, ?_⟩
  · intro combinations mname a b
    unfold findCombinationsForModifier
    rw [List.mem_flatMap]
    constructor
    · rintro ⟨p, hp, hmem⟩
      obtain ⟨q, hq, heq⟩ := List.mem_map.mp hmem
      obtain ⟨rfl, rfl⟩ : p.1 = a ∧ q.1 = b := by
        simpa [Prod.ext_iff] using heq
      have hq' := List.mem_filter.mp hq
      exact ⟨p.2, hp, q.2, hq'.1, by simpa using hq'.2⟩
    · rintro ⟨ps, hps, e, he, hname⟩
      refine ⟨(a, ps), hps, List.mem_map.mpr ⟨(b, e), List.mem_filter.mpr ⟨he, by simpa⟩, rfl⟩⟩
  · intro selectedItem targetModifier combinationsData allItems item
    unfold getCompatibleItems
    rw [(List.mergeSort_perm _ strLeb).mem_iff,
        mem_compatFold selectedItem targetModifier combinationsData allItems [] item]
    unfold compatCond
    simp

/-- Witness for C8 at the concrete spec example, applying the general
membership characterization. -/
theorem findCombinations_spec_witness :
    (str "Z", str "Y") ∈ findCombinationsForModifier (str "Foo")
      [(str "X", [(str "Y", ⟨str "Foo"⟩)]), (str "Z", [(str "Y", ⟨str "Foo"⟩)])] :=
  (findCombinations_spec.1 _ (str "Foo") (str "Z") (str "Y")).mpr
    ⟨[(str "Y", ⟨str "Foo"⟩)], by decide, ⟨str "Foo"⟩, by decide, rfl⟩

/-! ## Consolidate / split / merge (`processStats` of the crafter view) -/

/-- One entry of the `needed` list produced by `findCombinations`: a
populated slot-stat occurrence. -/
structure NeedItem where
  modifier : Str
  slotName : Str
  powerBit : Nat
  combinations : List (Str × Str)
deriving DecidableEq, Repr

/-- A consolidated group of identical modifier requests. -/
structure Group where
  modifier : Str
  powerBit : Nat
  combinations : List (Str × Str)
  count : Nat
  slots : List Str
deriving DecidableEq, Repr

/-- A processed (possibly split) group, carrying its card identity. -/
structure ProcGroup extends Group where
  cardId : Str
  isSplit : Bool
deriving DecidableEq, Repr

/-- One step of the consolidation `Map`: `set` updates in place, otherwise
appends preserving insertion order. -/
def consUpdate (m : List (Str × Group)) (item : NeedItem) : List (Str × Group) :=
  match m with
  | [] => [(item.modifier,
      { modifier := item.modifier, powerBit := item.powerBit,
        combinations := item.combinations, count := 1, slots := [item.slotName] })]
  | p :: rest =>
    if p.1 = item.modifier then
      (p.1, { p.2 with
        count := p.2.count + 1,
        slots := p.2.slots ++ [item.slotName],
        powerBit := if p.2.powerBit < item.powerBit then item.powerBit else p.2.powerBit })
        :: rest
    else p :: consUpdate rest item

/-- First phase of `processStats`: consolidate all stats by modifier. -/
def consolidate (needed : List NeedItem) : List (Str × Group) :=
  needed.foldl consUpdate []

/-- Split application: each requested size is taken as
`min(splitCount, remaining)` and pushed when positive, the array index
feeding the `cardId`; any remainder is kept as one final consolidated
group whose slots are `slots.slice(-remaining)`. -/
def splitGo (item : Group) (modifier : Str) : List Nat → Nat → Nat → List ProcGroup
  | [], _idx, remaining =>
    if 0 < remaining then
      [{ item with
           count := remaining,
           slots := item.slots.drop (item.slots.length - remaining),
           cardId := modifier,
           isSplit := false }]
    else []
  | s :: rest, idx, remaining =>
    let actual := min s remaining
    if 0 < actual then
      { item with
          count := actual,
          slots := item.slots.take actual,
          cardId := modifier ++ str "-split-" ++ natToChars idx,
          isSplit := true }
        :: splitGo item modifier rest (idx + 1) (remaining - actual)
    else splitGo item modifier rest (idx + 1) remaining

/-- `processStats(needed)` with the module-level `splitModifiers` map passed
explicitly: consolidate by modifier, then partition each group with a split
entry, keeping the others as single consolidated groups. -/
def processStats (splits : List (Str × List Nat)) (needed : List NeedItem) : List ProcGroup :=
  (consolidate needed).foldl (fun result p =>
    match (splits.find? (fun q => q.1 = p.1)).map (·.2) with
    | some splitCounts => result ++ splitGo p.2 p.1 splitCounts 0 p.2.count
    | none => result ++ [{ p.2 with cardId := p.1, isSplit := false }]) []

/-! ### Invariants of consolidation and splitting -/

theorem consUpdate_keyinv (m : List (Str × Group)) (item : NeedItem)
    (h : ∀ p ∈ m, (p : Str × Group).2.modifier = p.1 ∧ 1 ≤ p.2.count) :
    ∀ p ∈ consUpdate m item, (p : Str × Group).2.modifier = p.1 ∧ 1 ≤ p.2.count := by
  induction m with
  | nil =>
    intro p hp
    rcases List.mem_singleton.mp hp with rfl
    exact ⟨rfl, le_refl 1⟩
  | cons q rest ih =>
    intro p hp
    unfold consUpdate at hp
    by_cases hq : q.1 = item.modifier
    · rw [if_pos hq] at hp
      rcases List.mem_cons.mp hp with rfl | hp'
      · have := h q (List.mem_cons_self _ _)
        refine ⟨this.1, ?_⟩
        show 1 ≤ q.2.count + 1
        omega
      · exact h p (List.mem_cons_of_mem _ hp')
    · rw [if_neg hq] at hp
      rcases List.mem_cons.mp hp with rfl | hp'
      · exact h p (List.mem_cons_self _ _)
      · exact ih (fun r hr => h r (List.mem_cons_of_mem _ hr)) p hp'

theorem consolidate_keyinv (needed : List NeedItem) :
    ∀ p ∈ consolidate needed, (p : Str × Group).2.modifier = p.1 ∧ 1 ≤ p.2.count := by
  suffices h : ∀ (acc : List (Str × Group)),
      (∀ p ∈ acc, (p : Str × Group).2.modifier = p.1 ∧ 1 ≤ p.2.count) →
      ∀ p ∈ needed.foldl consUpdate acc, (p : Str × Group).2.modifier = p.1 ∧ 1 ≤ p.2.count by
    exact h [] (by simp)
  induction needed with
  | nil => intro acc hacc; simpa only [List.foldl_nil] using hacc
  | cons item rest ih =>
    intro acc hacc
    rw [List.foldl_cons]
    exact ih _ (consUpdate_keyinv acc item hacc)

/-- Per-key count sum over the consolidation map. -/
def sumKey (m : List (Str × Group)) (k : Str) : Nat :=
  ((m.filter (fun p => decide (p.1 = k))).map (·.2.count)).sum

theorem sumKey_cons (q : Str × Group) (l : List (Str × Group)) (k : Str) :
    sumKey (q :: l) k = (if q.1 = k then q.2.count else 0) + sumKey l k := by
  by_cases h : q.1 = k <;> simp [sumKey, List.filter_cons, h]

theorem sumKey_consUpdate (m : List (Str × Group)) (item : NeedItem) (k : Str) :
    sumKey (consUpdate m item) k = sumKey m k + if item.modifier = k then 1 else 0 := by
  induction m with
  | nil =>
    show sumKey [(item.modifier, _)] k = _
    rw [sumKey_cons]
    by_cases h : item.modifier = k <;> simp [sumKey, h]
  | cons q rest ih =>
    show sumKey (if q.1 = item.modifier then _ :: rest else q :: consUpdate rest item) k = _
    by_cases hq : q.1 = item.modifier
    · rw [if_pos hq, sumKey_cons, sumKey_cons]
      by_cases hk : q.1 = k
      · have him : item.modifier = k := hq ▸ hk
        simp only [hk, if_true, him]
        show q.2.count + 1 + sumKey rest k = q.2.count + sumKey rest k + 1
        omega
      · have him : ¬ item.modifier = k := fun h => hk (hq.symm ▸ h)
        simp [hk, him]
    · rw [if_neg hq, sumKey_cons, ih, sumKey_cons]
      omega

theorem sumKey_consolidate (needed : List NeedItem) (k : Str) :
    sumKey (consolidate needed) k
      = (needed.filter (fun i => decide (i.modifier = k))).length := by
  suffices h : ∀ (acc : List (Str × Group)),
      sumKey (needed.foldl consUpdate acc) k
        = sumKey acc k + (needed.filter (fun i => decide (i.modifier = k))).length by
    have := h []
    simpa [sumKey] using this
  induction needed with
  | nil => intro acc; simp
  | cons item rest ih =>
    intro acc
    rw [List.foldl_cons, ih, sumKey_consUpdate]
    by_cases h : item.modifier = k
    · simp [List.filter_cons, h]
      omega
    · simp [List.filter_cons, h]

theorem splitGo_counts (item : Group) (modifier : Str) :
    ∀ (sc : List Nat) (idx remaining : Nat),
      (((splitGo item modifier sc idx remaining).map (·.count)).sum = remaining) ∧
      (∀ g ∈ splitGo item modifier sc idx remaining,
        1 ≤ g.count ∧ g.modifier = item.modifier) := by
  intro sc
  induction sc with
  | nil =>
    intro idx remaining
    by_cases h : 0 < remaining
    · constructor
      · simp [splitGo, h]
      · intro g hg
        rcases List.mem_singleton.mp (by simpa [splitGo, h] using hg) with rfl
        exact ⟨h, rfl⟩
    · constructor
      · simp [splitGo, h]; omega
      · intro g hg
        simp [splitGo, h] at hg
  | cons s rest ih =>
    intro idx remaining
    by_cases h : 0 < min s remaining
    · constructor
      · have hrec := (ih (idx + 1) (remaining - min s remaining)).1
        simp only [splitGo, h, if_pos, List.map_cons, List.sum_cons, hrec]
        omega
      · intro g hg
        simp only [splitGo, h, if_pos] at hg
        rcases List.mem_cons.mp hg with rfl | hg'
        · exact ⟨h, rfl⟩
        · exact (ih (idx + 1) (remaining - min s remaining)).2 g hg'
    · have hz : min s remaining = 0 := by omega
      constructor
      · simpa [splitGo, h] using (ih (idx + 1) remaining).1
      · intro g hg
        rw [splitGo] at hg
        simp only [h, if_neg, ite_false] at hg
        exact (ih (idx + 1) remaining).2 g (by simpa [hz] using hg)

/-- The batch of processed groups one consolidated entry produces. -/
def batchFor (splits : List (Str × List Nat)) (p : Str × Group) : List ProcGroup :=
  match (splits.find? (fun q => q.1 = p.1)).map (·.2) with
  | some splitCounts => splitGo p.2 p.1 splitCounts 0 p.2.count
  | none => [{ p.2 with cardId := p.1, isSplit := false }]

theorem processStats_eq_flatMap (splits : List (Str × List Nat)) (needed : List NeedItem) :
    processStats splits needed = (consolidate needed).flatMap (batchFor splits) := by
  unfold processStats
  generalize consolidate needed = l
  suffices h : ∀ (acc : List ProcGroup),
      l.foldl (fun result p =>
        match (splits.find? (fun q => q.1 = p.1)).map (·.2) with
        | some splitCounts => result ++ splitGo p.2 p.1 splitCounts 0 p.2.count
        | none => result ++ [{ p.2 with cardId := p.1, isSplit := false }]) acc
      = acc ++ l.flatMap (batchFor splits) by
    simpa using h []
  induction l with
  | nil => intro acc; simp
  | cons p rest ih =>
    intro acc
    rw [List.foldl_cons]
    rcases hfind : (splits.find? (fun q => q.1 = p.1)).map (·.2) with - | sc <;>
      simp [hfind, ih, batchFor, List.flatMap_cons]

theorem batchFor_counts (splits : List (Str × List Nat)) (p : Str × Group)
    (hkey : p.2.modifier = p.1) (hcnt : 1 ≤ p.2.count) (m : Str) :
    ((((batchFor splits p).filter (fun g => decide (g.modifier = m))).map (·.count)).sum
      = if p.1 = m then p.2.count else 0) ∧
    (∀ g ∈ batchFor splits p, 1 ≤ g.count) := by
  rcases hfind : (splits.find? (fun q => q.1 = p.1)).map (·.2) with - | sc
  · have hbatch : batchFor splits p = [{ p.2 with cardId := p.1, isSplit := false }] := by
      simp only [batchFor, hfind]
    rw [hbatch]
    constructor
    · by_cases hm : p.1 = m
      · simp [List.filter_cons, hkey, hm]
      · have : ¬ p.2.modifier = m := fun h => hm (hkey ▸ h)
        simp [List.filter_cons, this, hm]
    · intro g hg
      rcases List.mem_singleton.mp hg with rfl
      exact hcnt
  · have hbatch : batchFor splits p = splitGo p.2 p.1 sc 0 p.2.count := by
      simp only [batchFor, hfind]
    rw [hbatch]
    have hsum := (splitGo_counts p.2 p.1 sc 0 p.2.count).1
    have hmem := (splitGo_counts p.2 p.1 sc 0 p.2.count).2
    constructor
    · by_cases hm : p.1 = m
      · have hfil : (splitGo p.2 p.1 sc 0 p.2.count).filter (fun g => decide (g.modifier = m))
            = splitGo p.2 p.1 sc 0 p.2.count := by
          apply List.filter_eq_self.mpr
          intro g hg
          simp [(hmem g hg).2, hkey, hm]
        rw [hfil, hsum, if_pos hm]
      · have hfil : (splitGo p.2 p.1 sc 0 p.2.count).filter (fun g => decide (g.modifier = m))
            = [] := by
          apply List.filter_eq_nil_iff.mpr
          intro g hg
          simp [(hmem g hg).2, hkey, hm]
        rw [hfil, if_neg hm]
        simp
    · intro g hg
      exact (hmem g hg).1

/-- Claim C10: `processStats` conserves slot-instances — for every modifier,
the `count` fields of the returned groups for that modifier sum to the
number of input entries for that modifier, and every returned group has a
positive count, whatever the (arbitrary) split configuration. -/
theorem processStats_conserves (splits : List (Str × List Nat)) (needed : List NeedItem)
    (m : Str) :
    ((((processStats splits needed).filter (fun g => decide (g.modifier = m))).map
        (·.count)).sum
      = (needed.filter (fun i => decide (i.modifier = m))).length) ∧
    (∀ g ∈ processStats splits needed, 1 ≤ g.count) := by
  rw [processStats_eq_flatMap]
  have hinv := consolidate_keyinv needed
  constructor
  · rw [← sumKey_consolidate needed m]
    generalize hl : consolidate needed = l at hinv
    clear hl
    induction l with
    | nil => simp [sumKey]
    | cons p rest ih =>
      rw [List.flatMap_cons, List.filter_append, List.map_append, List.sum_append,
          sumKey_cons]
      have hp := hinv p (List.mem_cons_self _ _)
      rw [(batchFor_counts splits p hp.1 hp.2 m).1,
          ih (fun q hq => hinv q (List.mem_cons_of_mem _ hq))]
  · intro g hg
    obtain ⟨p, hp, hgp⟩ := List.mem_flatMap.mp hg
    have hk := hinv p hp
    exact (batchFor_counts splits p hk.1 hk.2 m).2 g hgp

theorem consolidate_single (needed : List NeedItem) (m : Str)
    (hne : needed ≠ []) (hall : ∀ i ∈ needed, i.modifier = m) :
    ∃ G : Group, consolidate needed = [(m, G)] ∧ G.count = needed.length := by
  suffices h : ∀ (rest : List NeedItem) (G : Group), (∀ i ∈ rest, i.modifier = m) →
      ∃ G2, rest.foldl consUpdate [(m, G)] = [(m, G2)] ∧ G2.count = G.count + rest.length by
    cases needed with
    | nil => exact absurd rfl hne
    | cons i rest =>
      have hi : i.modifier = m := hall i (List.mem_cons_self _ _)
      unfold consolidate
      rw [List.foldl_cons]
      have h0 : consUpdate [] i = [(m,
          { modifier := i.modifier, powerBit := i.powerBit,
            combinations := i.combinations, count := 1, slots := [i.slotName] })] := by
        simp [consUpdate, hi]
      rw [h0]
      obtain ⟨G2, hG2, hcount⟩ := h rest _ (fun j hj => hall j (List.mem_cons_of_mem _ hj))
      refine ⟨G2, hG2, ?_⟩
      rw [hcount]
      show 1 + rest.length = rest.length + 1
      omega
  intro rest
  induction rest with
  | nil =>
    intro G _
    exact ⟨G, rfl, by simp⟩
  | cons i rest ih =>
    intro G hall2
    rw [List.foldl_cons]
    have hi : i.modifier = m := hall2 i (List.mem_cons_self _ _)
    have h1 : consUpdate [(m, G)] i = [(m,
        { G with
            count := G.count + 1,
            slots := G.slots ++ [i.slotName],
            powerBit := if G.powerBit < i.powerBit then i.powerBit else G.powerBit })] := by
      simp [consUpdate, hi]
    rw [h1]
    obtain ⟨G2, hG2, hc⟩ := ih _ (fun j hj => hall2 j (List.mem_cons_of_mem _ hj))
    refine ⟨G2, hG2, ?_⟩
    rw [hc]
    show G.count + 1 + rest.length = G.count + (rest.length + 1)
    omega

/-- The partition the claim describes, written from its words: the requested
sizes are applied in order, each clamped to `[1, remaining]`, and any
positive remainder is kept as one final consolidated subgroup. -/
def specSplitSizes : List Nat → Nat → List Nat
  | [], remaining => if remaining = 0 then [] else [remaining]
  | s :: rest, remaining =>
    if remaining = 0 then specSplitSizes rest 0
    else max 1 (min s remaining) :: specSplitSizes rest (remaining - max 1 (min s remaining))

theorem splitGo_counts_eq_spec (item : Group) (modifier : Str) :
    ∀ (sc : List Nat) (idx remaining : Nat), (∀ s ∈ sc, 1 ≤ s) →
      (splitGo item modifier sc idx remaining).map (·.count) = specSplitSizes sc remaining := by
  intro sc
  induction sc with
  | nil =>
    intro idx remaining _
    by_cases h : remaining = 0
    · simp [splitGo, specSplitSizes, h]
    · have : 0 < remaining := Nat.pos_of_ne_zero h
      simp [splitGo, specSplitSizes, h, this]
  | cons s rest ih =>
    intro idx remaining hpos
    have hs : 1 ≤ s := hpos s (List.mem_cons_self _ _)
    have hrest : ∀ x ∈ rest, 1 ≤ x := fun x hx => hpos x (List.mem_cons_of_mem _ hx)
    by_cases h0 : remaining = 0
    · subst h0
      have hmin : min s 0 = 0 := Nat.min_zero s
      simp only [splitGo, specSplitSizes, hmin, Nat.lt_irrefl, if_neg, ite_false,
        if_pos rfl]
      exact ih (idx + 1) 0 hrest
    · have hrem : 1 ≤ remaining := Nat.pos_of_ne_zero h0
      have hmin : 1 ≤ min s remaining := le_min hs hrem
      have hmax : max 1 (min s remaining) = min s remaining := Nat.max_eq_right hmin
      simp only [splitGo, specSplitSizes, if_neg h0, hmax]
      rw [if_pos (by omega : 0 < min s remaining), List.map_cons]
      rw [ih (idx + 1) (remaining - min s remaining) hrest]

/-- The spec's concrete split example: five slot-instances of `Bar`. -/
def barNeeded5 : List NeedItem :=
  [{ modifier := str "Bar", slotName := str "Head", powerBit := 35, combinations := [] },
   { modifier := str "Bar", slotName := str "Chest", powerBit := 35, combinations := [] },
   { modifier := str "Bar", slotName := str "Belt", powerBit := 35, combinations := [] },
   { modifier := str "Bar", slotName := str "Gloves", powerBit := 35, combinations := [] },
   { modifier := str "Bar", slotName := str "Boots", powerBit := 35, combinations := [] }]

/-- Claim C7: splitting a consolidated group of `n` instances with an
ordered list of positive split counts partitions it in order into subgroups
clamped to `[1, remaining]` with any remainder kept as one final
consolidated subgroup (5 split by `[2,2]` gives `2,2,1`), and merging
(deleting the modifier's split entry) returns it to a single consolidated
group of size `n` (5 in the example). -/
theorem split_merge_spec :
    (∀ (needed : List NeedItem) (m : Str) (splits : List (Str × List Nat)),
      needed ≠ [] → (∀ i ∈ needed, i.modifier = m) →
      splits.find? (fun q => q.1 = m) = none →
      (processStats splits needed).map (fun g => (g.count, g.isSplit))
        = [(needed.length, false)]) ∧
    (∀ (needed : List NeedItem) (m : Str) (sc : List Nat),
      needed ≠ [] → (∀ i ∈ needed, i.modifier = m) → (∀ s ∈ sc, 1 ≤ s) →
      (processStats [(m, sc)] needed).map (·.count) = specSplitSizes sc needed.length) ∧
    ((processStats [(str "Bar", [2, 2])] barNeeded5).map (fun g => (g.count, g.isSplit))
      = [(2, true), (2, true), (1, false)]) ∧
    ((processStats [] barNeeded5).map (fun g => (g.count, g.isSplit)) = [(5, false)]) ∧
    specSplitSizes [2, 2] 5 = [2, 2, 1] := by
  refine ⟨?_, ?_, by decide, by decide, by decide⟩
  · intro needed m splits hne hall hfind
    obtain ⟨G, hG, hcount⟩ := consolidate_single needed m hne hall
    rw [processStats_eq_flatMap, hG, List.flatMap_cons]
    have hbatch : batchFor splits (m, G) = [{ G with cardId := m, isSplit := false }] := by
      simp only [batchFor, hfind]
      rfl
    rw [hbatch]
    simp [hcount]
  · intro needed m sc hne hall hpos
    obtain ⟨G, hG, hcount⟩ := consolidate_single needed m hne hall
    rw [processStats_eq_flatMap, hG, List.flatMap_cons]
    have hfind : (([(m, sc)] : List (Str × List Nat)).find? (fun q => q.1 = m)) = some (m, sc) := by
      simp [List.find?_cons]
    have hbatch : batchFor [(m, sc)] (m, G) = splitGo G m sc 0 G.count := by
      simp only [batchFor, hfind]
      rfl
    rw [hbatch]
    simp only [List.flatMap_nil, List.append_nil]
    rw [splitGo_counts_eq_spec G m sc 0 G.count hpos, hcount]

/-- Witness for C7 at the spec's example (five `Bar` instances, splits
`[2,2]`, and the merged configuration). -/
theorem split_merge_spec_witness :
    ((processStats [] barNeeded5).map (fun g => (g.count, g.isSplit))
      = [(barNeeded5.length, false)]) ∧
    ((processStats [(str "Bar", [2, 2])] barNeeded5).map (·.count)
      = specSplitSizes [2, 2] barNeeded5.length) :=
  ⟨split_merge_spec.1 barNeeded5 (str "Bar") [] (by decide) (by decide) rfl,
   split_merge_spec.2.1 barNeeded5 (str "Bar") [2, 2] (by decide) (by decide) (by decide)⟩

/-! ## String lemmas for the URL codec -/

theorem splitCh_ne_nil (sep : Char) (l : Str) : splitCh sep l ≠ [] := by
  cases l with
  | nil => simp [splitCh]
  | cons c rest =>
    unfold splitCh
    cases h : splitCh sep rest with
    | nil => simp
    | cons hd tl => by_cases hc : c = sep <;> simp [hc]

theorem splitCh_not_mem {sep : Char} {l : Str} (h : sep ∉ l) : splitCh sep l = [l] := by
  induction l with
  | nil => rfl
  | cons c rest ih =>
    have hc : ¬ c = sep := fun he => h (he ▸ List.mem_cons_self _ _)
    have hrest : sep ∉ rest := fun hr => h (List.mem_cons_of_mem _ hr)
    unfold splitCh
    rw [ih hrest]
    simp [hc]

theorem splitCh_cons (sep c : Char) (rest : Str) :
    splitCh sep (c :: rest) = match splitCh sep rest with
      | [] => [[]]
      | h :: t => if c = sep then [] :: h :: t else (c :: h) :: t := rfl

theorem splitCh_append (sep : Char) (a b : Str) (ha : sep ∉ a) :
    splitCh sep (a ++ sep :: b) = a :: splitCh sep b := by
  induction a with
  | nil =>
    show splitCh sep (sep :: b) = [] :: splitCh sep b
    rw [splitCh_cons]
    cases h : splitCh sep b with
    | nil => exact absurd h (splitCh_ne_nil sep b)
    | cons hd tl => simp
  | cons c a' ih =>
    have hc : ¬ c = sep := fun he => ha (he ▸ List.mem_cons_self _ _)
    have ha' : sep ∉ a' := fun hm => ha (List.mem_cons_of_mem _ hm)
    show splitCh sep (c :: (a' ++ sep :: b)) = (c :: a') :: splitCh sep b
    rw [splitCh_cons, ih ha']
    simp [hc]

theorem splitCh_joinCh (sep : Char) (parts : List Str)
    (h : ∀ p ∈ parts, sep ∉ p) (hne : parts ≠ []) :
    splitCh sep (joinCh sep parts) = parts := by
  induction parts with
  | nil => exact absurd rfl hne
  | cons p rest ih =>
    cases rest with
    | nil =>
      show splitCh sep p = [p]
      exact splitCh_not_mem (h p (List.mem_cons_self _ _))
    | cons q rest' =>
      show splitCh sep (p ++ sep :: joinCh sep (q :: rest')) = p :: q :: rest'
      rw [splitCh_append sep p _ (h p (List.mem_cons_self _ _)),
          ih (fun r hr => h r (List.mem_cons_of_mem _ hr)) (by simp)]

theorem mem_joinCh {sep : Char} {parts : List Str} {c : Char} (h : c ∈ joinCh sep parts) :
    c = sep ∨ ∃ p ∈ parts, c ∈ p := by
  induction parts with
  | nil => simp [joinCh] at h
  | cons p rest ih =>
    cases rest with
    | nil =>
      exact Or.inr ⟨p, List.mem_cons_self _ _, h⟩
    | cons q rest' =>
      rcases List.mem_append.mp h with h1 | h2
      · exact Or.inr ⟨p, List.mem_cons_self _ _, h1⟩
      · rcases List.mem_cons.mp h2 with rfl | h3
        · exact Or.inl rfl
        · rcases ih h3 with hs | ⟨r, hr, hcr⟩
          · exact Or.inl hs
          · exact Or.inr ⟨r, List.mem_cons_of_mem _ hr, hcr⟩

theorem mem_of_mem_splitCh {sep : Char} :
    ∀ {l : Str} {p : Str}, p ∈ splitCh sep l → ∀ {c : Char}, c ∈ p → c ∈ l := by
  intro l
  induction l with
  | nil =>
    intro p hp c hc
    rcases List.mem_singleton.mp (by simpa [splitCh] using hp) with rfl
    simp at hc
  | cons c0 rest ih =>
    intro p hp c hc
    rw [splitCh_cons] at hp
    cases hsp : splitCh sep rest with
    | nil => exact absurd hsp (splitCh_ne_nil sep rest)
    | cons hd tl =>
      rw [hsp] at hp
      have hp2 : p ∈ (if c0 = sep then [] :: hd :: tl else (c0 :: hd) :: tl) := hp
      by_cases hc0 : c0 = sep
      · rw [if_pos hc0] at hp2
        rcases List.mem_cons.mp hp2 with rfl | hp'
        · simp at hc
        · exact List.mem_cons_of_mem _ (ih (hsp ▸ hp') hc)
      · rw [if_neg hc0] at hp2
        rcases List.mem_cons.mp hp2 with rfl | hp'
        · rcases List.mem_cons.mp hc with rfl | hc'
          · exact List.mem_cons_self _ _
          · exact List.mem_cons_of_mem _
              (ih (hsp ▸ List.mem_cons_self hd tl) hc')
        · exact List.mem_cons_of_mem _ (ih (hsp ▸ List.mem_cons_of_mem _ hp') hc)

/-! ### Decimal printing and parsing -/

theorem natToCharsAux_congr :
    ∀ (f1 f2 n : Nat), n < f1 → n < f2 → natToCharsAux f1 n = natToCharsAux f2 n := by
  intro f1
  induction f1 with
  | zero => intro f2 n h1 _; omega
  | succ f ih =>
    intro f2 n h1 h2
    cases f2 with
    | zero => omega
    | succ f2' =>
      show (if n < 10 then [digitChar n] else natToCharsAux f (n / 10) ++ [digitChar (n % 10)])
        = (if n < 10 then [digitChar n] else natToCharsAux f2' (n / 10) ++ [digitChar (n % 10)])
      by_cases h10 : n < 10
      · simp [h10]
      · have hd : n / 10 < n := Nat.div_lt_self (by omega) (by omega)
        rw [if_neg h10, if_neg h10, ih f2' (n / 10) (by omega) (by omega)]

theorem natToChars_step (n : Nat) :
    natToChars n = if n < 10 then [digitChar n]
      else natToChars (n / 10) ++ [digitChar (n % 10)] := by
  show natToCharsAux (n + 1) n = _
  by_cases h10 : n < 10
  · simp [natToCharsAux, h10]
  · have hd : n / 10 < n := Nat.div_lt_self (by omega) (by omega)
    show (if n < 10 then [digitChar n] else natToCharsAux n (n / 10) ++ [digitChar (n % 10)]) = _
    rw [if_neg h10, if_neg h10,
        natToCharsAux_congr n (n / 10 + 1) (n / 10) (by omega) (by omega)]
    rfl

theorem digitChar_isDigit {d : Nat} (h : d < 10) : (digitChar d).isDigit = true := by
  interval_cases d <;> decide

theorem digitChar_toNat {d : Nat} (h : d < 10) : (digitChar d).toNat - 48 = d := by
  interval_cases d <;> decide

theorem natToChars_all_digits : ∀ n : Nat, ∀ c ∈ natToChars n, c.isDigit = true := by
  intro n
  induction n using Nat.strong_induction_on with
  | _ n ih =>
    rw [natToChars_step]
    by_cases h : n < 10
    · rw [if_pos h]
      intro c hc
      rcases List.mem_singleton.mp hc with rfl
      exact digitChar_isDigit h
    · rw [if_neg h]
      intro c hc
      rcases List.mem_append.mp hc with h1 | h2
      · exact ih (n / 10) (Nat.div_lt_self (by omega) (by omega)) c h1
      · rcases List.mem_singleton.mp h2 with rfl
        exact digitChar_isDigit (Nat.mod_lt n (by omega))

theorem natToChars_ne_nil (n : Nat) : natToChars n ≠ [] := by
  rw [natToChars_step]
  by_cases h : n < 10 <;> simp [h]

theorem digitsToNat_append (a : Str) (c : Char) :
    digitsToNat (a ++ [c]) = 10 * digitsToNat a + (c.toNat - 48) := by
  simp [digitsToNat, List.foldl_append]

theorem digitsToNat_natToChars : ∀ n : Nat, digitsToNat (natToChars n) = n := by
  intro n
  induction n using Nat.strong_induction_on with
  | _ n ih =>
    rw [natToChars_step]
    by_cases h : n < 10
    · rw [if_pos h]
      show 10 * 0 + ((digitChar n).toNat - 48) = n
      rw [digitChar_toNat h]
      omega
    · rw [if_neg h, digitsToNat_append,
          ih (n / 10) (Nat.div_lt_self (by omega) (by omega)),
          digitChar_toNat (Nat.mod_lt n (by omega))]
      omega

theorem jsParseInt_natToChars (n : Nat) : jsParseInt (natToChars n) = some n := by
  unfold jsParseInt
  rw [List.takeWhile_eq_self_iff.mpr (natToChars_all_digits n)]
  simp only [if_neg (natToChars_ne_nil n)]
  rw [digitsToNat_natToChars]

theorem jsToIntD_natToChars (n d : Nat) :
    jsToIntD (natToChars n) d = if n = 0 then d else n := by
  unfold jsToIntD
  rw [jsParseInt_natToChars]

/-- Digit characters are none of the codec's separator characters. -/
theorem isDigit_not_special {c : Char} (h : c.isDigit = true) :
    c ≠ '.' ∧ c ≠ '|' ∧ c ≠ ':' ∧ c ≠ ',' ∧ c ≠ '=' ∧ c ≠ '%' := by
  refine ⟨?_, ?_, ?_, ?_, ?_, ?_⟩ <;> rintro rfl <;> exact absurd h (by decide)

/-! ## `decodeURIComponent` -/

/-- Hexadecimal digit value of a character. -/
def hexVal (c : Char) : Option Nat :=
  if '0' ≤ c ∧ c ≤ '9' then some (c.toNat - 48)
  else if 'A' ≤ c ∧ c ≤ 'F' then some (c.toNat - 55)
  else if 'a' ≤ c ∧ c ≤ 'f' then some (c.toNat - 87)
  else none

/-- `decodeURIComponent`: `none` models a thrown `URIError`.  Only
single-byte (ASCII) escapes are decoded here; escapes of `0x80` and above
begin multi-byte UTF-8 sequences which no modifier name of this program
uses and on which no theorem below depends, so they are conservatively
mapped to failure. -/
def decodeURIComp : Str → Option Str
  | [] => some []
  | c :: t =>
    if c = '%' then
      match t with
      | h1 :: h2 :: t2 =>
        match hexVal h1, hexVal h2 with
        | some a, some b =>
          if 16 * a + b < 128 then
            (decodeURIComp t2).map (fun r => Char.ofNat (16 * a + b) :: r)
          else none
        | _, _ => none
      | _ => none
    else (decodeURIComp t).map (fun r => c :: r)

theorem decodeURIComp_id {l : Str} (h : '%' ∉ l) : decodeURIComp l = some l := by
  induction l with
  | nil => rfl
  | cons c t ih =>
    have hc : ¬ c = '%' := fun he => h (he ▸ List.mem_cons_self _ _)
    have ht : '%' ∉ t := fun hm => h (List.mem_cons_of_mem _ hm)
    have iht := ih ht
    cases t with
    | nil => simp [decodeURIComp, hc]
    | cons d t' =>
      cases t' with
      | nil =>
        rw [decodeURIComp]
        · rw [if_neg hc, iht]; rfl
        · intro h1 h2 t2 hh; simp at hh
      | cons e t'' =>
        rw [decodeURIComp, if_neg hc, iht]; rfl

/-! ## URL codec tables (`src/unnamed/part_000`) -/

/-- `MODIFIER_CODES`: full modifier name → 2-char code. -/
def MODIFIER_CODES : List (Str × Str) :=
  [(str "Ranged General", str "RG"), (str "Melee General", str "MG"),
   (str "Defense General", str "DG"), (str "Toughness Boost", str "TB"),
   (str "Endurance Boost", str "EB"), (str "Opportune Chance", str "OC"),
   (str "Strikethrough Chance", str "SC"), (str "Block Value", str "BV"),
   (str "Critical Hit Chance", str "CC"), (str "Evasion Value", str "EV"),
   (str "Evasion Chance", str "EC"), (str "Glancing Blow", str "GB"),
   (str "Parry", str "PA"), (str "Critical Hit Value", str "CV"),
   (str "Action Cost Reduction", str "AC"), (str "Healing Potency", str "HP")]

/-- `CODE_TO_MODIFIER = Object.fromEntries(entries.map(([n,c]) => [c,n]))`. -/
def CODE_TO_MODIFIER : List (Str × Str) := MODIFIER_CODES.map (fun p => (p.2, p.1))

/-- The slot-id strings of `SLOT_CONFIG`. -/
def slotIdStr : SlotId → Str
  | .helmet => str "helmet"
  | .lbicep => str "lbicep"
  | .rbicep => str "rbicep"
  | .chest => str "chest"
  | .shirt => str "shirt"
  | .lbracer => str "lbracer"
  | .rbracer => str "rbracer"
  | .gloves => str "gloves"
  | .belt => str "belt"
  | .pants => str "pants"
  | .boots => str "boots"
  | .weapon => str "weapon"

/-- `build.slots[s]` existence: the decoder's build always carries exactly
the twelve `SLOT_CONFIG` ids. -/
def slotIdOfStr (s : Str) : Option SlotId :=
  slotIds.find? (fun sid => slotIdStr sid = s)

/-- `SLOT_CODES`: slot-id string → code, in object-literal order. -/
def SLOT_CODES : List (Str × Str) :=
  [(str "helmet", str "H"), (str "chest", str "C"), (str "shirt", str "S"),
   (str "belt", str "B"), (str "pants", str "P"), (str "boots", str "O"),
   (str "lbicep", str "LB"), (str "lbracer", str "LR"), (str "gloves", str "G"),
   (str "rbicep", str "RB"), (str "rbracer", str "RR"), (str "weapon", str "W")]

/-- `CODE_TO_SLOT`. -/
def CODE_TO_SLOT : List (Str × Str) := SLOT_CODES.map (fun p => (p.2, p.1))

/-- `table[k] || k` (the values of these tables are never empty strings). -/
def jsLookupD (table : List (Str × Str)) (k : Str) : Str :=
  ((table.find? (fun p => p.1 = k)).map (·.2)).getD k

/-! ## Compressed codec (`encodeBuild` / `decodeBuild`, `src/unnamed/part_000`) -/

/-- `MODIFIER_CODES[s.modifier] || s.modifier.substring(0,3).toUpperCase()`. -/
def encodeMod (m : Str) : Str :=
  match MODIFIER_CODES.find? (fun p => p.1 = m) with
  | some p => p.2
  | none => (m.take 3).map Char.toUpper

/-- `CODE_TO_MODIFIER[code] || code`. -/
def decodeMod (code : Str) : Str :=
  ((CODE_TO_MODIFIER.find? (fun p => p.1 = code)).map (·.2)).getD code

/-- The `slot.power.mod1.mod2...` chunk a populated slot contributes. -/
def slotPart (b : Build) (sid : SlotId) : Option Str :=
  let slot := b.slots sid
  if slot.stats = [] then none
  else
    let mods := joinCh '.'
      ((slot.stats.filter (fun s => decide (s.modifier ≠ []))).map (fun s => encodeMod s.modifier))
    if mods = [] then none
    else some (jsLookupD SLOT_CODES (slotIdStr sid) ++ '.' ::
      (natToChars (jsOrNat slot.powerBit 35) ++ '.' :: mods))

/-- The `X.mod=value...` chunk of the external buffs, when any exist. -/
def buffPart (b : Build) : Option Str :=
  if b.externalBuffs = [] then none
  else some ('X' :: '.' :: joinCh '.'
    (b.externalBuffs.map (fun bf => encodeMod bf.modifier ++ '=' :: natToChars bf.value)))

/-- `encodeBuild(build)` of the compressed codec. -/
def encodeBuild (b : Build) : Str :=
  joinCh '|' (slotIds.filterMap (slotPart b) ++ (buffPart b).toList)

/-- The decoder's freshly initialised build (every slot at power 35 with no
stats; the cosmetic `name` field is not modelled). -/
def emptyDecodedBuild : Build :=
  { slots := fun _ => { powerBit := 35, stats := [] }, externalBuffs := [] }

/-- `segments[i].split('=')` destructured to its first two chunks. -/
def splitEqFirst (seg : Str) : Str × Option Str :=
  match splitCh '=' seg with
  | [] => ([], none)
  | [c] => (c, none)
  | c :: v :: _ => (c, some v)

/-- `parseInt(o, 10) || 0` where `o` may be `undefined`. -/
def jsToIntOpt0 (o : Option Str) : Nat :=
  match o with
  | none => 0
  | some v => jsToIntD v 0

/-- `parseInt(o, 10) || 35` where `o` may be `undefined`. -/
def jsToIntOpt35 (o : Option Str) : Nat :=
  match o with
  | none => 35
  | some v => jsToIntD v 35

/-- One loop iteration of the compressed `decodeBuild`. -/
def processPartV2 (b : Build) (part : Str) : Build :=
  match splitCh '.' part with
  | [] => b
  | slotCode :: rest =>
    if slotCode = str "X" then
      { b with externalBuffs := b.externalBuffs ++ rest.map (fun seg =>
          let cv := splitEqFirst seg
          { modifier := decodeMod cv.1, value := jsToIntOpt0 cv.2,
            source := str "imported" }) }
    else
      match slotIdOfStr (jsLookupD CODE_TO_SLOT slotCode) with
      | none => b
      | some sid =>
        { b with slots := fun s =>
            if s = sid then
              { powerBit := jsToIntOpt35 rest.head?,
                stats := ((rest.drop 1).filter (fun code => decide (code ≠ []))).map
                  (fun code => { modifier := decodeMod code, ratio := none }) }
            else b.slots s }

/-- The legacy `buffs:`-part handling shared by both decoder revisions.
`none` models a thrown `URIError`. -/
def legacyBuffs (buffsStr : Str) : Option (List Buff) :=
  (splitCh ',' buffsStr).mapM (fun bseg =>
    let parts := splitCh ':' bseg
    let mv := splitCh '=' (parts.headD [])
    (decodeURIComp (mv.headD [])).map (fun modifier =>
      { modifier := modifier, value := jsToIntOpt0 (mv.get? 1),
        source := match parts.get? 1 with
          | some s => if s = [] then str "unknown" else s
          | none => str "unknown" }))

/-- `part.startsWith('buffs:')`. -/
def startsWithBuffs (part : Str) : Bool :=
  decide (part.take 6 = str "buffs:")

/-- Leftmost occurrence of a pattern. -/
def findSub (pat : Str) : Str → Option Nat
  | [] => if pat = [] then some 0 else none
  | c :: t =>
    if (c :: t).take pat.length = pat then some 0
    else (findSub pat t).map (· + 1)

/-- `s.split(pat)` for a non-empty string pattern, with structural fuel. -/
def splitOnStrAux (pat : Str) (fuel : Nat) (l : Str) : List Str :=
  match fuel with
  | 0 => [l]
  | fuel + 1 =>
    match findSub pat l with
    | none => [l]
    | some i => l.take i :: splitOnStrAux pat fuel (l.drop (i + pat.length))

/-- `part.split('buffs:')` and friends. -/
def splitOnStr (pat l : Str) : List Str := splitOnStrAux pat (l.length + 1) l

/-- The `buffs:` branch common to both decoder revisions. -/
def buffsBranch (b : Build) (part : Str) : Option Build :=
  match (splitOnStr (str "buffs:") part).get? 1 with
  | some buffsStr =>
    if buffsStr = [] then some b
    else (legacyBuffs buffsStr).map (fun bl => { b with externalBuffs := bl })
  | none => some b

/-- One loop iteration of `decodeLegacyBuild` (`src/unnamed/part_000`): the
slot update is guarded by `slotId && build.slots[slotId] && modsStr`. -/
def processLegacyPartV2 (b : Build) (part : Str) : Option Build :=
  if startsWithBuffs part then buffsBranch b part
  else
    match slotIdOfStr ((splitCh ':' part).headD []) with
    | none => some b
    | some sid =>
      match (splitCh ':' part).get? 2 with
      | none => some b
      | some ms =>
        if ms = [] then some b
        else
          (((splitCh ',' ms).filter (fun m => decide (m ≠ []))).mapM decodeURIComp).map
            (fun mods =>
              { b with slots := fun s =>
                  if s = sid then
                    { powerBit := jsToIntOpt35 ((splitCh ':' part).get? 1),
                      stats := mods.map (fun m => { modifier := m, ratio := none }) }
                  else b.slots s })

/-- `decodeBuild(encoded)` of the compressed codec (`src/unnamed/part_000`):
legacy strings (containing both `:` and `,`) are delegated to
`decodeLegacyBuild`.  `none` models a thrown error. -/
def decodeBuildV2 (encoded : Str) : Option Build :=
  if encoded = [] then some emptyDecodedBuild
  else if ':' ∈ encoded ∧ ',' ∈ encoded then
    (splitCh '|' encoded).foldlM processLegacyPartV2 emptyDecodedBuild
  else
    some ((splitCh '|' encoded).foldl processPartV2 emptyDecodedBuild)

/-- One loop iteration of the `src/utils/urlState.js` revision of
`decodeBuild`: same as the legacy decoder but with no guard on the
modifiers segment — a part naming a valid slot with fewer than three
colon-separated segments reaches `modsStr.split(',')` with `modsStr`
undefined and throws a `TypeError` (`none`). -/
def processPartV1 (b : Build) (part : Str) : Option Build :=
  if startsWithBuffs part then buffsBranch b part
  else
    match slotIdOfStr ((splitCh ':' part).headD []) with
    | none => some b
    | some sid =>
      match (splitCh ':' part).get? 2 with
      | none => none
      | some ms =>
        (((splitCh ',' ms).filter (fun m => decide (m ≠ []))).mapM decodeURIComp).map
          (fun mods =>
            { b with slots := fun s =>
                if s = sid then
                  { powerBit := jsToIntOpt35 ((splitCh ':' part).get? 1),
                    stats := mods.map (fun m => { modifier := m, ratio := none }) }
                else b.slots s })

/-- `decodeBuild(encoded)` of `src/utils/urlState.js` (the colon/comma
format). -/
def decodeBuildV1 (encoded : Str) : Option Build :=
  if encoded = [] then some emptyDecodedBuild
  else (splitCh '|' encoded).foldlM processPartV1 emptyDecodedBuild

/-! ## Round-trip facts about the code tables -/

theorem modCodes_facts :
    ∀ p ∈ MODIFIER_CODES, decodeMod p.2 = p.1 ∧ encodeMod p.1 = p.2 ∧
      p.1 ≠ [] ∧ p.2 ≠ [] ∧
      ∀ c ∈ p.2, c ≠ '.' ∧ c ≠ '|' ∧ c ≠ ':' ∧ c ≠ '=' := by
  decide

theorem slot_table_facts :
    ∀ sid : SlotId,
      slotIdOfStr (jsLookupD CODE_TO_SLOT (jsLookupD SLOT_CODES (slotIdStr sid))) = some sid ∧
      jsLookupD SLOT_CODES (slotIdStr sid) ≠ str "X" ∧
      jsLookupD SLOT_CODES (slotIdStr sid) ≠ [] ∧
      ∀ c ∈ jsLookupD SLOT_CODES (slotIdStr sid), c ≠ '.' ∧ c ≠ '|' ∧ c ≠ ':' := by
  decide

theorem every_slotId_mem : ∀ sid : SlotId, sid ∈ slotIds := by
  decide

/-- The spec's counterexample build: a single slot carrying `Camouflage`,
a core armor stat that has no entry in `MODIFIER_CODES`. -/
def camouflageBuild : Build :=
  { slots := fun sid =>
      match sid with
      | .helmet => { powerBit := 35, stats := [{ modifier := str "Camouflage", ratio := none }] }
      | _ => { powerBit := 35, stats := [] },
    externalBuffs := [] }

/-- Counterexample to claim C3: the round-trip fails on a build whose
modifier is not in the abbreviation table — `Camouflage` encodes to its
3-letter fallback `CAM` (`H.35.CAM`) and decodes back as the literal string
`CAM`, not `Camouflage`. -/
theorem encode_decode_not_roundtrip :
    encodeBuild camouflageBuild = str "H.35.CAM" ∧
    ((decodeBuildV2 (encodeBuild camouflageBuild)).map
        (fun b => (b.slots SlotId.helmet).stats.map (·.modifier)))
      ≠ some ((camouflageBuild.slots SlotId.helmet).stats.map (·.modifier)) := by
  constructor
  · decide
  · decide

/-! ## Round-trip of the compressed codec on table-covered builds -/

theorem joinCh_ne_nil {sep : Char} {parts : List Str} (hne : parts ≠ [])
    (hp : ∀ p ∈ parts, p ≠ []) : joinCh sep parts ≠ [] := by
  cases parts with
  | nil => exact absurd rfl hne
  | cons p rest =>
    cases rest with
    | nil => exact hp p (List.mem_cons_self _ _)
    | cons q r =>
      show p ++ sep :: joinCh sep (q :: r) ≠ []
      simp

/-- The slot a chunk decodes to: the original power bit and modifier list
(the slot entries' loose `ratio` fields are not serialized). -/
def decodedSlotOf (b : Build) (sid : SlotId) : Slot :=
  { powerBit := (b.slots sid).powerBit,
    stats := (b.slots sid).stats.map (fun s => { modifier := s.modifier, ratio := none }) }

theorem encodeMod_facts {m : Str}
    (h : (MODIFIER_CODES.find? (fun p => p.1 = m)).isSome) :
    decodeMod (encodeMod m) = m ∧ m ≠ [] ∧ encodeMod m ≠ [] ∧
    ∀ c ∈ encodeMod m, c ≠ '.' ∧ c ≠ '|' ∧ c ≠ ':' ∧ c ≠ '=' := by
  obtain ⟨pr, hpr⟩ := Option.isSome_iff_exists.mp h
  have hmem : pr ∈ MODIFIER_CODES := List.mem_of_find?_eq_some hpr
  have hname : pr.1 = m := by simpa using List.find?_some hpr
  have hfacts := modCodes_facts pr hmem
  have hcode : encodeMod m = pr.2 := by
    unfold encodeMod
    rw [hpr]
  rw [hcode, ← hname]
  exact ⟨hfacts.1, hfacts.2.2.1, hfacts.2.2.2.1, hfacts.2.2.2.2⟩

theorem processPartV2_cons (binit : Build) (part : Str) (slotCode : Str) (rest : List Str)
    (h : splitCh '.' part = slotCode :: rest) :
    processPartV2 binit part =
      if slotCode = str "X" then
        { binit with externalBuffs := binit.externalBuffs ++ rest.map (fun seg =>
            let cv := splitEqFirst seg
            { modifier := decodeMod cv.1, value := jsToIntOpt0 cv.2,
              source := str "imported" }) }
      else
        match slotIdOfStr (jsLookupD CODE_TO_SLOT slotCode) with
        | none => binit
        | some sid =>
          { binit with slots := fun s =>
              if s = sid then
                { powerBit := jsToIntOpt35 rest.head?,
                  stats := ((rest.drop 1).filter (fun code => decide (code ≠ []))).map
                    (fun code => { modifier := decodeMod code, ratio := none }) }
              else binit.slots s } := by
  unfold processPartV2
  rw [h]

theorem processPartV2_slotChunk (b : Build) (sid : SlotId)
    (htab : ∀ s ∈ (b.slots sid).stats,
      (MODIFIER_CODES.find? (fun p => p.1 = s.modifier)).isSome)
    (hpb : (b.slots sid).powerBit ≠ 0)
    (hstats : (b.slots sid).stats ≠ []) :
    ∃ chunk, slotPart b sid = some chunk ∧ chunk ≠ [] ∧
      (∀ c ∈ chunk, c ≠ '|' ∧ c ≠ ':') ∧
      ∀ binit : Build, processPartV2 binit chunk =
        { binit with slots := fun s =>
            if s = sid then decodedSlotOf b sid else binit.slots s } := by
  have hsfacts := slot_table_facts sid
  have hmodne : ∀ s ∈ (b.slots sid).stats, s.modifier ≠ [] :=
    fun s hs => (encodeMod_facts (htab s hs)).2.1
  have hfilter : (b.slots sid).stats.filter (fun s => decide (s.modifier ≠ []))
      = (b.slots sid).stats :=
    List.filter_eq_self.mpr (fun s hs => by simpa using hmodne s hs)
  have hcodes_ne : ∀ cd ∈ (b.slots sid).stats.map (fun s => encodeMod s.modifier), cd ≠ [] := by
    intro cd hcd
    obtain ⟨s, hs, rfl⟩ := List.mem_map.mp hcd
    exact (encodeMod_facts (htab s hs)).2.2.1
  have hcodes_chars : ∀ cd ∈ (b.slots sid).stats.map (fun s => encodeMod s.modifier),
      ∀ c ∈ cd, c ≠ '.' ∧ c ≠ '|' ∧ c ≠ ':' ∧ c ≠ '=' := by
    intro cd hcd
    obtain ⟨s, hs, rfl⟩ := List.mem_map.mp hcd
    exact (encodeMod_facts (htab s hs)).2.2.2
  have hcodesnil : (b.slots sid).stats.map (fun s => encodeMod s.modifier) ≠ [] := by
    intro h
    exact hstats (List.map_eq_nil_iff.mp h)
  have hmodsne : joinCh '.' ((b.slots sid).stats.map (fun s => encodeMod s.modifier)) ≠ [] :=
    joinCh_ne_nil hcodesnil hcodes_ne
  have hchunk : slotPart b sid = some (jsLookupD SLOT_CODES (slotIdStr sid) ++ '.' ::
      (natToChars (b.slots sid).powerBit ++ '.' ::
        joinCh '.' ((b.slots sid).stats.map (fun s => encodeMod s.modifier)))) := by
    show (if (b.slots sid).stats = [] then none
      else if joinCh '.' (((b.slots sid).stats.filter (fun s => decide (s.modifier ≠ []))).map
          (fun s => encodeMod s.modifier)) = [] then none
      else some (jsLookupD SLOT_CODES (slotIdStr sid) ++ '.' ::
        (natToChars (jsOrNat (b.slots sid).powerBit 35) ++ '.' ::
          joinCh '.' (((b.slots sid).stats.filter (fun s => decide (s.modifier ≠ []))).map
            (fun s => encodeMod s.modifier))))) = _
    rw [hfilter, if_neg hstats, if_neg hmodsne]
    unfold jsOrNat
    rw [if_neg hpb]
  refine ⟨_, hchunk, by simp, ?_, ?_⟩
  · -- character discipline of the chunk
    intro c hc
    rcases List.mem_append.mp hc with h1 | h2
    · have := hsfacts.2.2.2 c h1
      exact ⟨this.2.1, this.2.2⟩
    · rcases List.mem_cons.mp h2 with rfl | h3
      · exact ⟨by decide, by decide⟩
      · rcases List.mem_append.mp h3 with h4 | h5
        · have := isDigit_not_special (natToChars_all_digits _ c h4)
          exact ⟨this.2.1, this.2.2.1⟩
        · rcases List.mem_cons.mp h5 with rfl | h6
          · exact ⟨by decide, by decide⟩
          · rcases mem_joinCh h6 with rfl | ⟨cd, hcd, hccd⟩
            · exact ⟨by decide, by decide⟩
            · have := hcodes_chars cd hcd c hccd
              exact ⟨this.2.1, this.2.2.1⟩
  · -- processing the chunk performs exactly the slot update
    intro binit
    have hdot_code : '.' ∉ jsLookupD SLOT_CODES (slotIdStr sid) := by
      intro hdot
      exact absurd rfl (hsfacts.2.2.2 '.' hdot).1
    have hdot_nat : '.' ∉ natToChars (b.slots sid).powerBit := by
      intro hdot
      exact absurd rfl (isDigit_not_special (natToChars_all_digits _ '.' hdot)).1
    have hsplit : splitCh '.' (jsLookupD SLOT_CODES (slotIdStr sid) ++ '.' ::
        (natToChars (b.slots sid).powerBit ++ '.' ::
          joinCh '.' ((b.slots sid).stats.map (fun s => encodeMod s.modifier))))
        = jsLookupD SLOT_CODES (slotIdStr sid) :: natToChars (b.slots sid).powerBit ::
            (b.slots sid).stats.map (fun s => encodeMod s.modifier) := by
      rw [splitCh_append '.' _ _ hdot_code,
          splitCh_append '.' _ _ hdot_nat,
          splitCh_joinCh '.' _ (fun cd hcd hdot =>
            (hcodes_chars cd hcd '.' hdot).1 rfl) hcodesnil]
    rw [processPartV2_cons binit _ _ _ hsplit, if_neg hsfacts.2.1, hsfacts.1]
    have hpower : jsToIntOpt35 (natToChars (b.slots sid).powerBit ::
        (b.slots sid).stats.map (fun s => encodeMod s.modifier)).head?
        = (b.slots sid).powerBit := by
      show jsToIntD (natToChars (b.slots sid).powerBit) 35 = (b.slots sid).powerBit
      rw [jsToIntD_natToChars, if_neg hpb]
    have hstatsmap : (((natToChars (b.slots sid).powerBit ::
          (b.slots sid).stats.map (fun s => encodeMod s.modifier)).drop 1).filter
          (fun code => decide (code ≠ []))).map
          (fun code => ({ modifier := decodeMod code, ratio := none } : StatEntry))
        = (b.slots sid).stats.map (fun s => { modifier := s.modifier, ratio := none }) := by
      rw [List.drop_one, List.tail_cons,
          List.filter_eq_self.mpr (fun cd hcd => by simpa using hcodes_ne cd hcd),
          List.map_map]
      apply List.map_congr_left
      intro s hs
      have hdm := (encodeMod_facts (htab s hs)).1
      simp [Function.comp, hdm]
    show ({ binit with slots := fun s =>
        if s = sid then
          { powerBit := jsToIntOpt35 (natToChars (b.slots sid).powerBit ::
              (b.slots sid).stats.map (fun s => encodeMod s.modifier)).head?,
            stats := (((natToChars (b.slots sid).powerBit ::
              (b.slots sid).stats.map (fun s => encodeMod s.modifier)).drop 1).filter
              (fun code => decide (code ≠ []))).map
              (fun code => { modifier := decodeMod code, ratio := none }) }
        else binit.slots s } : Build) = _
    rw [hpower, hstatsmap]
    rfl

theorem splitEqFirst_eq {seg c v : Str} (h : splitCh '=' seg = [c, v]) :
    splitEqFirst seg = (c, some v) := by
  unfold splitEqFirst
  rw [h]

theorem jsToIntD_natToChars_zero (v : Nat) : jsToIntD (natToChars v) 0 = v := by
  rw [jsToIntD_natToChars]
  by_cases h : v = 0 <;> simp [h]

/-- A buff list as the decoder reconstructs it: values kept, every source
replaced by `imported`. -/
def importedBuffs (l : List Buff) : List Buff :=
  l.map (fun bf => { modifier := bf.modifier, value := bf.value, source := str "imported" })

theorem processPartV2_buffChunk (b : Build)
    (htab : ∀ bf ∈ b.externalBuffs,
      (MODIFIER_CODES.find? (fun p => p.1 = bf.modifier)).isSome)
    (hne : b.externalBuffs ≠ []) :
    ∃ chunk, buffPart b = some chunk ∧ chunk ≠ [] ∧
      (∀ c ∈ chunk, c ≠ '|' ∧ c ≠ ':') ∧
      ∀ binit : Build, processPartV2 binit chunk =
        { binit with externalBuffs := binit.externalBuffs ++ importedBuffs b.externalBuffs } := by
  have hseg_chars : ∀ sg ∈ b.externalBuffs.map
      (fun bf => encodeMod bf.modifier ++ '=' :: natToChars bf.value),
      ∀ c ∈ sg, c ≠ '.' ∧ c ≠ '|' ∧ c ≠ ':' := by
    intro sg hsg c hc
    obtain ⟨bf, hbf, rfl⟩ := List.mem_map.mp hsg
    rcases List.mem_append.mp hc with h1 | h2
    · have := (encodeMod_facts (htab bf hbf)).2.2.2 c h1
      exact ⟨this.1, this.2.1, this.2.2.1⟩
    · rcases List.mem_cons.mp h2 with rfl | h3
      · exact ⟨by decide, by decide, by decide⟩
      · have := isDigit_not_special (natToChars_all_digits _ c h3)
        exact ⟨this.1, this.2.1, this.2.2.1⟩
  have hseg_ne : ∀ sg ∈ b.externalBuffs.map
      (fun bf => encodeMod bf.modifier ++ '=' :: natToChars bf.value), sg ≠ [] := by
    intro sg hsg
    obtain ⟨bf, hbf, rfl⟩ := List.mem_map.mp hsg
    simp
  have hsegsnil : b.externalBuffs.map
      (fun bf => encodeMod bf.modifier ++ '=' :: natToChars bf.value) ≠ [] := by
    intro h
    exact hne (List.map_eq_nil_iff.mp h)
  have hchunk : buffPart b = some ('X' :: '.' :: joinCh '.'
      (b.externalBuffs.map (fun bf => encodeMod bf.modifier ++ '=' :: natToChars bf.value))) := by
    show (if b.externalBuffs = [] then none else some _) = _
    rw [if_neg hne]
  refine ⟨_, hchunk, by simp, ?_, ?_⟩
  · intro c hc
    rcases List.mem_cons.mp hc with rfl | h1
    · exact ⟨by decide, by decide⟩
    · rcases List.mem_cons.mp h1 with rfl | h2
      · exact ⟨by decide, by decide⟩
      · rcases mem_joinCh h2 with rfl | ⟨sg, hsg, hcs⟩
        · exact ⟨by decide, by decide⟩
        · have := hseg_chars sg hsg c hcs
          exact ⟨this.2.1, this.2.2⟩
  · intro binit
    have hsplit : splitCh '.' ('X' :: '.' :: joinCh '.'
        (b.externalBuffs.map (fun bf => encodeMod bf.modifier ++ '=' :: natToChars bf.value)))
        = str "X" :: b.externalBuffs.map
            (fun bf => encodeMod bf.modifier ++ '=' :: natToChars bf.value) := by
      show splitCh '.' (['X'] ++ '.' :: joinCh '.' _) = _
      rw [splitCh_append '.' ['X'] _ (by decide),
          splitCh_joinCh '.' _ (fun sg hsg hdot => (hseg_chars sg hsg '.' hdot).1 rfl) hsegsnil]
      rfl
    rw [processPartV2_cons binit _ _ _ hsplit, if_pos rfl]
    have hmaps : (b.externalBuffs.map
          (fun bf => encodeMod bf.modifier ++ '=' :: natToChars bf.value)).map
          (fun seg =>
            let cv := splitEqFirst seg
            ({ modifier := decodeMod cv.1, value := jsToIntOpt0 cv.2,
               source := str "imported" } : Buff))
        = importedBuffs b.externalBuffs := by
      rw [List.map_map]
      apply List.map_congr_left
      intro bf hbf
      have hEqCode : '=' ∉ encodeMod bf.modifier := by
        intro he
        exact ((encodeMod_facts (htab bf hbf)).2.2.2 '=' he).2.2.2 rfl
      have hEqNat : '=' ∉ natToChars bf.value := by
        intro he
        exact (isDigit_not_special (natToChars_all_digits _ '=' he)).2.2.2.2.1 rfl
      have hsef : splitEqFirst (encodeMod bf.modifier ++ '=' :: natToChars bf.value)
          = (encodeMod bf.modifier, some (natToChars bf.value)) := by
        apply splitEqFirst_eq
        rw [splitCh_append '=' _ _ hEqCode, splitCh_not_mem hEqNat]
      show (let cv := splitEqFirst (encodeMod bf.modifier ++ '=' :: natToChars bf.value);
        ({ modifier := decodeMod cv.1, value := jsToIntOpt0 cv.2,
           source := str "imported" } : Buff)) = _
      rw [hsef]
      show ({ modifier := decodeMod (encodeMod bf.modifier),
              value := jsToIntD (natToChars bf.value) 0, source := str "imported" } : Buff) = _
      rw [(encodeMod_facts (htab bf hbf)).1, jsToIntD_natToChars_zero]
    rw [hmaps]

theorem slotPart_empty {b : Build} {sid : SlotId} (h : (b.slots sid).stats = []) :
    slotPart b sid = none := by
  show (if (b.slots sid).stats = [] then none else _) = none
  rw [if_pos h]

theorem foldl_slotChunks (b : Build)
    (htab : ∀ sid : SlotId, ∀ s ∈ (b.slots sid).stats,
      (MODIFIER_CODES.find? (fun p => p.1 = s.modifier)).isSome)
    (hpb : ∀ sid : SlotId, (b.slots sid).powerBit ≠ 0) :
    ∀ (sids : List SlotId) (binit : Build),
      (((sids.filterMap (slotPart b)).foldl processPartV2 binit).externalBuffs
          = binit.externalBuffs) ∧
      (∀ sid : SlotId, ((sids.filterMap (slotPart b)).foldl processPartV2 binit).slots sid
          = if sid ∈ sids ∧ (b.slots sid).stats ≠ [] then decodedSlotOf b sid
            else binit.slots sid) := by
  intro sids
  induction sids with
  | nil =>
    intro binit
    exact ⟨rfl, fun sid => by simp⟩
  | cons sid0 rest ih =>
    intro binit
    by_cases hpop : (b.slots sid0).stats = []
    · have hfm : (sid0 :: rest).filterMap (slotPart b) = rest.filterMap (slotPart b) := by
        simp [List.filterMap_cons, slotPart_empty hpop]
      rw [hfm]
      refine ⟨(ih binit).1, fun sid => ?_⟩
      rw [(ih binit).2 sid]
      by_cases hmem : sid ∈ rest ∧ (b.slots sid).stats ≠ []
      · rw [if_pos hmem, if_pos ⟨List.mem_cons_of_mem _ hmem.1, hmem.2⟩]
      · rw [if_neg hmem, if_neg ?_]
        rintro ⟨hm, hne⟩
        rcases List.mem_cons.mp hm with rfl | hm'
        · exact hne hpop
        · exact hmem ⟨hm', hne⟩
    · obtain ⟨chunk, hchunk, -, -, hproc⟩ :=
        processPartV2_slotChunk b sid0 (htab sid0) (hpb sid0) hpop
      have hfm : (sid0 :: rest).filterMap (slotPart b)
          = chunk :: rest.filterMap (slotPart b) := by
        simp [List.filterMap_cons, hchunk]
      rw [hfm, List.foldl_cons, hproc binit]
      refine ⟨(ih _).1, fun sid => ?_⟩
      rw [(ih _).2 sid]
      by_cases hmem : sid ∈ rest ∧ (b.slots sid).stats ≠ []
      · rw [if_pos hmem, if_pos ⟨List.mem_cons_of_mem _ hmem.1, hmem.2⟩]
      · rw [if_neg hmem]
        by_cases hsid : sid = sid0
        · subst hsid
          show (if sid = sid then decodedSlotOf b sid else binit.slots sid) = _
          rw [if_pos rfl, if_pos ⟨List.mem_cons_self _ _, hpop⟩]
        · show (if sid = sid0 then decodedSlotOf b sid0 else binit.slots sid) = _
          rw [if_neg hsid, if_neg ?_]
          rintro ⟨hm, hne⟩
          rcases List.mem_cons.mp hm with rfl | hm'
          · exact hsid rfl
          · exact hmem ⟨hm', hne⟩

/-- Claim C3 (amended): on every build whose slot-stat and buff modifiers
all appear in the `MODIFIER_CODES` table, whose power bits are non-zero,
and whose empty slots carry the default power 35, decoding the encoding
succeeds and reproduces every slot's modifier list in order, every slot's
power bit, and the external-buff list in order by modifier and value —
with every buff's `source` rewritten to `imported`. -/
theorem encode_decode_roundtrip :
    ∀ b : Build,
      (∀ sid : SlotId, ∀ s ∈ (b.slots sid).stats,
        (MODIFIER_CODES.find? (fun p => p.1 = s.modifier)).isSome) →
      (∀ sid : SlotId, (b.slots sid).powerBit ≠ 0) →
      (∀ sid : SlotId, (b.slots sid).stats = [] → (b.slots sid).powerBit = 35) →
      (∀ bf ∈ b.externalBuffs,
        (MODIFIER_CODES.find? (fun p => p.1 = bf.modifier)).isSome) →
      ∃ b2, decodeBuildV2 (encodeBuild b) = some b2 ∧
        (∀ sid : SlotId, (b2.slots sid).stats.map (·.modifier)
            = (b.slots sid).stats.map (·.modifier)) ∧
        (∀ sid : SlotId, (b2.slots sid).powerBit = (b.slots sid).powerBit) ∧
        (b2.externalBuffs.map (fun bf => (bf.modifier, bf.value))
            = b.externalBuffs.map (fun bf => (bf.modifier, bf.value))) ∧
        (∀ bf ∈ b2.externalBuffs, bf.source = str "imported") := by
  intro b htab hpb hpb35 hbtab
  by_cases hparts : slotIds.filterMap (slotPart b) ++ (buffPart b).toList = []
  · -- no populated slot and no buff: the empty string decodes to the default
    obtain ⟨hfm, htl⟩ := List.append_eq_nil.mp hparts
    have hbuffs : b.externalBuffs = [] := by
      by_contra hne
      obtain ⟨chunk, hchunk, -, -, -⟩ := processPartV2_buffChunk b hbtab hne
      rw [hchunk] at htl
      exact absurd htl (by simp)
    have hstats : ∀ sid : SlotId, (b.slots sid).stats = [] := by
      intro sid
      by_contra hne
      obtain ⟨chunk, hchunk, -, -, -⟩ :=
        processPartV2_slotChunk b sid (htab sid) (hpb sid) hne
      have : chunk ∈ slotIds.filterMap (slotPart b) :=
        List.mem_filterMap.mpr ⟨sid, every_slotId_mem sid, hchunk⟩
      rw [hfm] at this
      exact absurd this (by simp)
    have henc : encodeBuild b = [] := by
      show joinCh '|' (slotIds.filterMap (slotPart b) ++ (buffPart b).toList) = []
      rw [hparts]
      rfl
    refine ⟨emptyDecodedBuild, ?_, ?_, ?_, ?_, ?_⟩
    · rw [henc]
      rfl
    · intro sid
      rw [hstats sid]
      rfl
    · intro sid
      rw [hpb35 sid (hstats sid)]
      rfl
    · rw [hbuffs]
      rfl
    · intro bf hbf
      simp [emptyDecodedBuild] at hbf
  · -- at least one chunk: split the joined string back into the chunks
    have hchunkinfo : ∀ part ∈ slotIds.filterMap (slotPart b) ++ (buffPart b).toList,
        part ≠ [] ∧ ∀ c ∈ part, c ≠ '|' ∧ c ≠ ':' := by
      intro part hpart
      rcases List.mem_append.mp hpart with hslot | hbuff
      · obtain ⟨sid, -, hsome⟩ := List.mem_filterMap.mp hslot
        have hpop : (b.slots sid).stats ≠ [] := by
          intro h0
          rw [slotPart_empty h0] at hsome
          cases hsome
        obtain ⟨chunk, hchunk, hcne, hchars, -⟩ :=
          processPartV2_slotChunk b sid (htab sid) (hpb sid) hpop
        have heq : chunk = part := Option.some.inj (hchunk.symm.trans hsome)
        exact heq ▸ ⟨hcne, hchars⟩
      · cases hbp : buffPart b with
        | none =>
          rw [hbp] at hbuff
          simp at hbuff
        | some chB =>
          rw [hbp] at hbuff
          have hpb2 : part = chB := by simpa using hbuff
          have hne : b.externalBuffs ≠ [] := by
            intro h0
            have hnone : buffPart b = none := by
              show (if b.externalBuffs = [] then none else _) = none
              rw [if_pos h0]
            rw [hnone] at hbp
            cases hbp
          obtain ⟨chunk, hchunk, hcne, hchars, -⟩ := processPartV2_buffChunk b hbtab hne
          have heq : chB = chunk := Option.some.inj (hbp.symm.trans hchunk)
          rw [hpb2, heq]
          exact ⟨hcne, hchars⟩
    have hsplitjoin : splitCh '|' (encodeBuild b)
        = slotIds.filterMap (slotPart b) ++ (buffPart b).toList := by
      show splitCh '|' (joinCh '|' _) = _
      exact splitCh_joinCh '|' _
        (fun p hp hbar => ((hchunkinfo p hp).2 '|' hbar).1 rfl) hparts
    have hencne : encodeBuild b ≠ [] :=
      joinCh_ne_nil hparts (fun p hp => (hchunkinfo p hp).1)
    have hnocolon : ':' ∉ encodeBuild b := by
      intro hc
      rcases mem_joinCh hc with heq | ⟨p, hp, hcp⟩
      · exact absurd heq (by decide)
      · exact ((hchunkinfo p hp).2 ':' hcp).2 rfl
    have hdecode : decodeBuildV2 (encodeBuild b)
        = some ((splitCh '|' (encodeBuild b)).foldl processPartV2 emptyDecodedBuild) := by
      show (if encodeBuild b = [] then some emptyDecodedBuild
        else if ':' ∈ encodeBuild b ∧ ',' ∈ encodeBuild b then _ else some _) = _
      rw [if_neg hencne, if_neg (fun hand => hnocolon hand.1)]
    rw [hdecode, hsplitjoin, List.foldl_append]
    have hmid := foldl_slotChunks b htab hpb slotIds emptyDecodedBuild
    have hmid_slots : ∀ sid : SlotId,
        (((slotIds.filterMap (slotPart b)).foldl processPartV2 emptyDecodedBuild).slots sid).stats.map (·.modifier)
            = (b.slots sid).stats.map (·.modifier) ∧
        (((slotIds.filterMap (slotPart b)).foldl processPartV2 emptyDecodedBuild).slots sid).powerBit
            = (b.slots sid).powerBit := by
      intro sid
      rw [hmid.2 sid]
      by_cases hpop : (b.slots sid).stats = []
      · rw [if_neg (fun h => h.2 hpop), hpop, hpb35 sid hpop]
        exact ⟨rfl, rfl⟩
      · rw [if_pos ⟨every_slotId_mem sid, hpop⟩]
        constructor
        · show ((b.slots sid).stats.map (fun s =>
            ({ modifier := s.modifier, ratio := none } : StatEntry))).map (·.modifier) = _
          rw [List.map_map]
          rfl
        · rfl
    cases hbp : buffPart b with
    | none =>
      have hbuffs : b.externalBuffs = [] := by
        by_contra hne
        obtain ⟨chunk, hchunk, -, -, -⟩ := processPartV2_buffChunk b hbtab hne
        rw [hbp] at hchunk
        cases hchunk
      show ∃ b2, some ((slotIds.filterMap (slotPart b)).foldl processPartV2 emptyDecodedBuild)
          = some b2 ∧ _
      refine ⟨_, rfl, fun sid => (hmid_slots sid).1, fun sid => (hmid_slots sid).2, ?_, ?_⟩
      · rw [hmid.1, hbuffs]
        rfl
      · intro bf hbf
        rw [hmid.1] at hbf
        simp [emptyDecodedBuild] at hbf
    | some chB =>
      have hne : b.externalBuffs ≠ [] := by
        intro h0
        have hnone : buffPart b = none := by
          show (if b.externalBuffs = [] then none else _) = none
          rw [if_pos h0]
        rw [hnone] at hbp
        cases hbp
      obtain ⟨chunk, hchunk, -, -, hproc⟩ := processPartV2_buffChunk b hbtab hne
      have heq : chB = chunk := Option.some.inj (hbp.symm.trans hchunk)
      subst heq
      show ∃ b2, some (processPartV2
          ((slotIds.filterMap (slotPart b)).foldl processPartV2 emptyDecodedBuild) chB)
          = some b2 ∧ _
      rw [hproc]
      refine ⟨_, rfl, fun sid => (hmid_slots sid).1, fun sid => (hmid_slots sid).2, ?_, ?_⟩
      · show (((slotIds.filterMap (slotPart b)).foldl processPartV2
            emptyDecodedBuild).externalBuffs ++ importedBuffs b.externalBuffs).map
            (fun bf => (bf.modifier, bf.value)) = _
        rw [hmid.1]
        show (importedBuffs b.externalBuffs).map (fun bf => (bf.modifier, bf.value)) = _
        rw [importedBuffs, List.map_map]
        rfl
      · intro bf hbf
        have hbf2 : bf ∈ ((slotIds.filterMap (slotPart b)).foldl processPartV2
            emptyDecodedBuild).externalBuffs ++ importedBuffs b.externalBuffs := hbf
        rw [hmid.1] at hbf2
        have hbf3 : bf ∈ importedBuffs b.externalBuffs := by
          simpa [emptyDecodedBuild] using hbf2
        obtain ⟨bf0, -, rfl⟩ := List.mem_map.mp hbf3
        rfl

/-- Witness for C3 (amended): a build with a populated helmet (`Ranged
General`, `Defense General`), a chest at power 30, and one buff. -/
def roundtripWitnessBuild : Build :=
  { slots := fun sid =>
      match sid with
      | .helmet =>
        { powerBit := 35,
          stats := [{ modifier := str "Ranged General", ratio := none },
                    { modifier := str "Defense General", ratio := none }] }
      | .chest =>
        { powerBit := 30,
          stats := [{ modifier := str "Melee General", ratio := none }] }
      | _ => { powerBit := 35, stats := [] },
    externalBuffs := [{ modifier := str "Toughness Boost", value := 25,
                        source := str "food" }] }

/-- Witness for C3 (amended), instantiating the round-trip at a concrete
build. -/
theorem encode_decode_roundtrip_witness :
    ∃ b2, decodeBuildV2 (encodeBuild roundtripWitnessBuild) = some b2 ∧
      (∀ sid : SlotId, (b2.slots sid).stats.map (·.modifier)
          = (roundtripWitnessBuild.slots sid).stats.map (·.modifier)) ∧
      (∀ sid : SlotId, (b2.slots sid).powerBit
          = (roundtripWitnessBuild.slots sid).powerBit) ∧
      (b2.externalBuffs.map (fun bf => (bf.modifier, bf.value))
          = roundtripWitnessBuild.externalBuffs.map (fun bf => (bf.modifier, bf.value))) ∧
      (∀ bf ∈ b2.externalBuffs, bf.source = str "imported") :=
  encode_decode_roundtrip roundtripWitnessBuild
    (fun sid => by cases sid <;> decide)
    (fun sid => by cases sid <;> decide)
    (fun sid => by cases sid <;> decide)
    (by decide)

/-! ## Total decoding on well-formed inputs (claim C9) -/

theorem headD_mem {α : Type} {l : List α} {d : α} (h : l ≠ []) : l.headD d ∈ l := by
  cases l with
  | nil => exact absurd rfl h
  | cons x xs => exact List.mem_cons_self _ _

theorem mem_of_mem_splitOnStrAux {pat : Str} :
    ∀ (fuel : Nat) (l : Str), ∀ p ∈ splitOnStrAux pat fuel l, ∀ c ∈ p, c ∈ l := by
  intro fuel
  induction fuel with
  | zero =>
    intro l p hp c hc
    rcases List.mem_singleton.mp hp with rfl
    exact hc
  | succ fuel ih =>
    intro l p hp c hc
    rw [show splitOnStrAux pat (fuel + 1) l = (match findSub pat l with
        | none => [l]
        | some i => l.take i :: splitOnStrAux pat fuel (l.drop (i + pat.length))) from rfl] at hp
    cases hf : findSub pat l with
    | none =>
      rw [hf] at hp
      rcases List.mem_singleton.mp hp with rfl
      exact hc
    | some i =>
      rw [hf] at hp
      have hp2 : p ∈ l.take i :: splitOnStrAux pat fuel (l.drop (i + pat.length)) := hp
      rcases List.mem_cons.mp hp2 with rfl | hp'
      · exact List.take_subset _ _ hc
      · exact List.drop_subset _ _ (ih _ p hp' c hc)

theorem mem_of_mem_splitOnStr {pat l : Str} {p : Str} (hp : p ∈ splitOnStr pat l)
    {c : Char} (hc : c ∈ p) : c ∈ l :=
  mem_of_mem_splitOnStrAux _ l p hp c hc

theorem option_mapM_isSome {α β : Type} (f : α → Option β) (l : List α)
    (h : ∀ x ∈ l, (f x).isSome) : (l.mapM f).isSome := by
  induction l with
  | nil => rfl
  | cons x xs ih =>
    rcases Option.isSome_iff_exists.mp (h x (List.mem_cons_self _ _)) with ⟨y, hy⟩
    rcases Option.isSome_iff_exists.mp
      (ih (fun z hz => h z (List.mem_cons_of_mem _ hz))) with ⟨ys, hys⟩
    rw [List.mapM_cons, hy, hys]
    rfl

theorem option_foldlM_isSome (f : Build → Str → Option Build) (l : List Str)
    (h : ∀ p ∈ l, ∀ b : Build, (f b p).isSome) :
    ∀ b0 : Build, (l.foldlM f b0).isSome := by
  induction l with
  | nil => intro b0; rfl
  | cons p rest ih =>
    intro b0
    rcases Option.isSome_iff_exists.mp (h p (List.mem_cons_self _ _) b0) with ⟨b1, hb1⟩
    rw [List.foldlM_cons, hb1]
    exact ih (fun q hq => h q (List.mem_cons_of_mem _ hq)) b1

theorem isSome_map {α β : Type} (f : α → β) (o : Option α) :
    (o.map f).isSome = o.isSome := by
  cases o <;> rfl

theorem buffsBranch_isSome (b : Build) (part : Str) (h : '%' ∉ part) :
    (buffsBranch b part).isSome := by
  unfold buffsBranch
  cases hg : (splitOnStr (str "buffs:") part).get? 1 with
  | none => rfl
  | some buffsStr =>
    show (if buffsStr = [] then some b
      else (legacyBuffs buffsStr).map (fun bl => { b with externalBuffs := bl })).isSome = true
    by_cases hbs : buffsStr = []
    · simp [hbs]
    · rw [if_neg hbs]
      have hbmem : buffsStr ∈ splitOnStr (str "buffs:") part := List.get?_mem hg
      have hbpct : '%' ∉ buffsStr := fun hc => h (mem_of_mem_splitOnStr hbmem hc)
      rw [isSome_map]
      apply option_mapM_isSome
      intro bseg hbseg
      have hsegpct : '%' ∉ bseg := fun hc => hbpct (mem_of_mem_splitCh hbseg hc)
      have hhead : (splitCh ':' bseg).headD [] ∈ splitCh ':' bseg :=
        headD_mem (splitCh_ne_nil ':' bseg)
      have hmvpct : '%' ∉ (splitCh ':' bseg).headD [] :=
        fun hc => hsegpct (mem_of_mem_splitCh hhead hc)
      have hmv : (splitCh '=' ((splitCh ':' bseg).headD [])).headD []
          ∈ splitCh '=' ((splitCh ':' bseg).headD []) :=
        headD_mem (splitCh_ne_nil '=' _)
      have hmpct : '%' ∉ (splitCh '=' ((splitCh ':' bseg).headD [])).headD [] :=
        fun hc => hmvpct (mem_of_mem_splitCh hmv hc)
      rw [isSome_map, decodeURIComp_id hmpct]
      rfl

theorem processLegacyPartV2_isSome (b : Build) (part : Str) (h : '%' ∉ part) :
    (processLegacyPartV2 b part).isSome := by
  unfold processLegacyPartV2
  by_cases hsw : startsWithBuffs part
  · rw [if_pos hsw]
    exact buffsBranch_isSome b part h
  · rw [if_neg hsw]
    cases hsid : slotIdOfStr ((splitCh ':' part).headD []) with
    | none => rfl
    | some sid =>
      cases hms : (splitCh ':' part).get? 2 with
      | none => rfl
      | some ms =>
        show (if ms = [] then some b
          else (((splitCh ',' ms).filter (fun m => decide (m ≠ []))).mapM decodeURIComp).map
            (fun mods =>
              { b with slots := fun s =>
                  if s = sid then
                    { powerBit := jsToIntOpt35 ((splitCh ':' part).get? 1),
                      stats := mods.map (fun m => { modifier := m, ratio := none }) }
                  else b.slots s })).isSome = true
        by_cases hmse : ms = []
        · rw [if_pos hmse]
          rfl
        · rw [if_neg hmse, isSome_map]
          apply option_mapM_isSome
          intro m hm
          have hmmem : m ∈ splitCh ',' ms := List.mem_of_mem_filter hm
          have hmsmem : ms ∈ splitCh ':' part := List.get?_mem hms
          have hmpct : '%' ∉ m := fun hc =>
            h (mem_of_mem_splitCh hmsmem (mem_of_mem_splitCh hmmem hc))
          rw [decodeURIComp_id hmpct]
          rfl

theorem processPartV1_isSome (b : Build) (part : Str) (h : '%' ∉ part)
    (hok : startsWithBuffs part = false →
      ((slotIdOfStr ((splitCh ':' part).headD [])).isSome →
        ((splitCh ':' part).get? 2).isSome)) :
    (processPartV1 b part).isSome := by
  unfold processPartV1
  by_cases hsw : startsWithBuffs part
  · rw [if_pos hsw]
    exact buffsBranch_isSome b part h
  · rw [if_neg hsw]
    cases hsid : slotIdOfStr ((splitCh ':' part).headD []) with
    | none => rfl
    | some sid =>
      cases hms : (splitCh ':' part).get? 2 with
      | none =>
        have := hok (Bool.not_eq_true _ ▸ hsw) (hsid ▸ rfl)
        rw [hms] at this
        cases this
      | some ms =>
        show ((((splitCh ',' ms).filter (fun m => decide (m ≠ []))).mapM decodeURIComp).map
            (fun mods =>
              { b with slots := fun s =>
                  if s = sid then
                    { powerBit := jsToIntOpt35 ((splitCh ':' part).get? 1),
                      stats := mods.map (fun m => { modifier := m, ratio := none }) }
                  else b.slots s })).isSome = true
        rw [isSome_map]
        apply option_mapM_isSome
        intro m hm
        have hmmem : m ∈ splitCh ',' ms := List.mem_of_mem_filter hm
        have hmsmem : ms ∈ splitCh ':' part := List.get?_mem hms
        have hmpct : '%' ∉ m := fun hc =>
          h (mem_of_mem_splitCh hmsmem (mem_of_mem_splitCh hmmem hc))
        rw [decodeURIComp_id hmpct]
        rfl

/-- Counterexample to claim C9: the `src/utils/urlState.js` revision of
`decodeBuild` throws on `helmet:30` — the part names a valid slot but has
no modifiers segment, so `modsStr` is `undefined` and
`modsStr.split(',')` raises a `TypeError` aborting the whole decode (the
caller `loadFromURL` wraps the call in `try/catch` for exactly this). -/
theorem decodeBuildV1_throws : decodeBuildV1 (str "helmet:30") = none := by
  rfl

/-- Claim C9 (amended): decoding degrades field-by-field — unparsable power
segments default to 35 and unrecognized segments are skipped — and never
throws, provided the input has no percent-escapes and (for the
`urlState.js` revision) every part addressing a valid slot carries a
modifiers segment; without those conditions decode throws (`TypeError` on
a short slot part in the `urlState.js` revision, `URIError` on a malformed
escape in the legacy path of both revisions). -/
theorem decodeBuild_degrades :
    (∀ enc : Str, '%' ∉ enc →
      (∀ part ∈ splitCh '|' enc, startsWithBuffs part = false →
        (slotIdOfStr ((splitCh ':' part).headD [])).isSome →
        ((splitCh ':' part).get? 2).isSome) →
      (decodeBuildV1 enc).isSome) ∧
    (∀ enc : Str, '%' ∉ enc → (decodeBuildV2 enc).isSome) ∧
    ((decodeBuildV1 (str "helmet:xx:Camouflage")).map
        (fun b => (b.slots SlotId.helmet).powerBit) = some 35) ∧
    ((decodeBuildV2 (str "H.zz.RG")).map
        (fun b => (b.slots SlotId.helmet).powerBit) = some 35) ∧
    ((decodeBuildV2 (str "QQ.30.RG")).map
        (fun b => slotIds.map (fun sid => b.slots sid))
      = some (slotIds.map (fun sid => emptyDecodedBuild.slots sid))) := by
  refine ⟨?_, ?_, by decide, by decide, by decide⟩
  · intro enc hpct hok
    unfold decodeBuildV1
    by_cases henc : enc = []
    · rw [if_pos henc]
      rfl
    · rw [if_neg henc]
      apply option_foldlM_isSome
      intro part hpart b
      exact processPartV1_isSome b part
        (fun hc => hpct (mem_of_mem_splitCh hpart hc)) (hok part hpart)
  · intro enc hpct
    unfold decodeBuildV2
    by_cases henc : enc = []
    · rw [if_pos henc]
      rfl
    · rw [if_neg henc]
      by_cases hleg : ':' ∈ enc ∧ ',' ∈ enc
      · rw [if_pos hleg]
        apply option_foldlM_isSome
        intro part hpart b
        exact processLegacyPartV2_isSome b part
          (fun hc => hpct (mem_of_mem_splitCh hpart hc))
      · rw [if_neg hleg]
        rfl

/-- Witness for C9 (amended): a well-formed legacy string through both
decoder revisions. -/
theorem decodeBuild_degrades_witness :
    (decodeBuildV1 (str "helmet:30:Camouflage")).isSome ∧
    (decodeBuildV2 (str "helmet:30:Camouflage,Dodge")).isSome :=
  ⟨decodeBuild_degrades.1 (str "helmet:30:Camouflage") (by decide) (by decide),
   decodeBuild_degrades.2.1 (str "helmet:30:Camouflage,Dodge") (by decide)⟩

end SWGear
